import Mathlib

/-!
Shallow embedding of the synchronization / naming / retry pipeline of the
weebcentral-dl repository (`downloader.py`, `src/utils.py`, `manga_utils.py`).
Python strings are modelled as `List Char`; Python floats of decimal literal
strings are modelled exactly over `ℚ`; filesystem directories are modelled as
optional lists of filenames (with file contents where a claim needs them).
The file is organised as: all definitions first, then the lemmas and the claim
theorems.
-/

namespace WeebCentral

/-- Characters of a Lean string literal, used to write Python string constants. -/
def chars (s : String) : List Char := s.data

/-- Numeric value of one decimal digit character. -/
def charVal (c : Char) : Nat := c.toNat - 48

/-- Value of a most-significant-digit-first decimal digit list (`int("...")`). -/
def natOfDigits (ds : List Char) : Nat :=
  ds.foldl (fun n c => 10 * n + charVal c) 0

/-- The decimal digit character for `m < 10`. -/
def charOfDigit (m : Nat) : Char := (chars "0123456789").getD m '0'

/-- Decimal digits of a number, accumulator style with fuel (structural
recursion so that concrete instances evaluate by kernel reduction); stops when
the number reaches zero, so any fuel at least the digit count is enough. -/
def natDigitsGo : Nat → Nat → List Char → List Char
  | 0, _, acc => acc
  | fuel + 1, n, acc =>
      if n = 0 then acc
      else natDigitsGo fuel (n / 10) (charOfDigit (n % 10) :: acc)

/-- Decimal representation of a natural number, as Python prints an `int`. -/
def natDigits (n : Nat) : List Char :=
  if n = 0 then ['0'] else natDigitsGo n n []

/-- `f"{base:03d}"`: decimal digits zero-padded to width 3. -/
def pad3 (base : Nat) : List Char :=
  List.replicate (3 - (natDigits base).length) '0' ++ natDigits base

/-! ## Chapter numbers (`src/utils.py`, `downloader.py`)

A chapter number is a decimal string `digits` or `digits.digits` (captured by
the source's `([\d\.]+)` regex and then fed to `float`). -/

/-- Well-formed chapter number string: integer digits plus an optional
`'.'`-separated fractional digit part. -/
def wfChapNum (s : List Char) : Bool :=
  let I := s.takeWhile (· ≠ '.')
  let R := s.dropWhile (· ≠ '.')
  !I.isEmpty && I.all Char.isDigit &&
    (R.isEmpty || (!R.tail.isEmpty && R.tail.all Char.isDigit))

/-- Exact value of `float(s)` for a well-formed chapter number string. -/
def pyFloatVal (s : List Char) : ℚ :=
  let I := s.takeWhile (· ≠ '.')
  let F := (s.dropWhile (· ≠ '.')).tail
  (natOfDigits I : ℚ) + (natOfDigits F : ℚ) / 10 ^ F.length

/-- `int(float(s))` for a well-formed chapter number string: the value of the
digits before the dot (float truncation towards zero on a non-negative value). -/
def int_of_float (s : List Char) : Nat :=
  natOfDigits (s.takeWhile (· ≠ '.'))

/-- `str(s).split(".")[-1]`: the part of `s` after its last `'.'` (all of `s`
when there is no dot). -/
def lastDotComponent (s : List Char) : List Char :=
  (s.reverse.takeWhile (· ≠ '.')).reverse

/-- `get_vol_and_chapter_names` from `src/utils.py`: volume and chapter
directory names generated from a chapter number string. -/
def get_vol_and_chapter_names (chap_num : List Char) : List Char × List Char :=
  let base := int_of_float chap_num
  if chap_num.contains '.' then
    let dec := lastDotComponent chap_num
    if dec ≠ ['0'] then
      (chars "vol_" ++ natDigits base ++ '-' :: dec,
       chars "chapter_" ++ natDigits base ++ '-' :: dec)
    else
      (chars "vol_" ++ pad3 base, chars "chapter_" ++ pad3 base)
  else
    (chars "vol_" ++ pad3 base, chars "chapter_" ++ pad3 base)

/-! ## Archive-name parsers (`downloader.py`)

`get_latest_downloaded_chapter` matches each file of the series folder against
`vol_0*(\d+)(?:-(\d+))?\.zip$` and
`{re.escape(series_title)}-(\d+)(?:\.(\d+))?.*\.cbz$` (both with `re.match`,
i.e. anchored at the start) and takes the max of the parsed float values;
`chapter_already_downloaded` full-matches `vol_0*{base}(?:-[0-9]+)?\.zip`. -/

/-- Match of a filename against `vol_0*(\d+)(?:-(\d+))?\.zip$` (anchored both
ends), returning `float(group1 + "." + group2)` resp. `float(group1)`. -/
def parse_vol_zip (f : List Char) : Option ℚ :=
  if (chars "vol_").isPrefixOf f ∧ (chars ".zip").isSuffixOf f ∧ 8 ≤ f.length then
    let body := (f.drop 4).take (f.length - 8)
    let d1 := body.takeWhile Char.isDigit
    let r := body.dropWhile Char.isDigit
    if d1.isEmpty then none
    else if r.isEmpty then some (natOfDigits d1 : ℚ)
    else
      match r with
      | '-' :: d2 =>
          if !d2.isEmpty && d2.all Char.isDigit then
            some ((natOfDigits d1 : ℚ) + (natOfDigits d2 : ℚ) / 10 ^ d2.length)
          else none
      | _ => none
  else none

/-- Match of a filename against `{title}-(\d+)(?:\.(\d+))?.*\.cbz$` (anchored at
the start by `re.match`, at the end by `$`), returning the parsed float value.
The trailing `.*\.cbz$` forces the filename to end in `.cbz`, checked as a
guard; the inner suffix checks mirror the regex backtracking over the optional
fractional group. -/
def parse_cbz (title f : List Char) : Option ℚ :=
  if (chars ".cbz").isSuffixOf f ∧ (title ++ ['-']).isPrefixOf f then
    let rest := f.drop (title.length + 1)
    let d1 := rest.takeWhile Char.isDigit
    let r1 := rest.dropWhile Char.isDigit
    if d1.isEmpty then none
    else
      match r1 with
      | '.' :: r2 =>
          let d2 := r2.takeWhile Char.isDigit
          if d2.isEmpty then
            if (chars ".cbz").isSuffixOf r1 then some (natOfDigits d1 : ℚ) else none
          else
            if (chars ".cbz").isSuffixOf (r2.drop d2.length) then
              some ((natOfDigits d1 : ℚ) + (natOfDigits d2 : ℚ) / 10 ^ d2.length)
            else if (chars ".cbz").isSuffixOf r1 then some (natOfDigits d1 : ℚ)
            else none
      | _ => if (chars ".cbz").isSuffixOf r1 then some (natOfDigits d1 : ℚ) else none
  else none

/-- Maximum of a list of rationals (`max(chapter_nums)`), `none` when empty. -/
def listMax : List ℚ → Option ℚ
  | [] => none
  | v :: vs =>
      match listMax vs with
      | none => some v
      | some m => some (max v m)

/-- `get_latest_downloaded_chapter` from `downloader.py`: the directory is
`none` when `os.path.exists(out_dir)` fails; otherwise every file is matched
against both archive-name patterns and the maximum parsed value is returned. -/
def get_latest_downloaded_chapter (series_title : List Char)
    (dirFiles : Option (List (List Char))) : Option ℚ :=
  match dirFiles with
  | none => none
  | some files =>
      listMax (files.flatMap fun f =>
        (parse_vol_zip f).toList ++ (parse_cbz series_title f).toList)

/-- Remainders of `body` after stripping `0*` then the literal digit string
`bs`, one entry per feasible split of the regex `0*{bs}`. -/
def zeroCandidates (bs : List Char) : List Char → List (List Char)
  | [] => if bs.isEmpty then [[]] else []
  | c :: rest =>
      (if bs.isPrefixOf (c :: rest) then [(c :: rest).drop bs.length] else []) ++
      (if c = '0' then zeroCandidates bs rest else [])

/-- The optional tail `(?:-[0-9]+)?` of the already-downloaded pattern. -/
def optDashDigits (t : List Char) : Bool :=
  match t with
  | [] => true
  | '-' :: ds => !ds.isEmpty && ds.all Char.isDigit
  | _ => false

/-- Full match of a filename against `vol_0*{base}(?:-[0-9]+)?\.zip`. -/
def matchesVolOfBase (base : Nat) (f : List Char) : Bool :=
  if (chars "vol_").isPrefixOf f ∧ (chars ".zip").isSuffixOf f ∧ 8 ≤ f.length then
    let body := (f.drop 4).take (f.length - 8)
    (zeroCandidates (natDigits base) body).any optDashDigits
  else false

/-- `chapter_already_downloaded` from `downloader.py`. -/
def chapter_already_downloaded (chap_num : List Char)
    (dirFiles : Option (List (List Char))) : Bool :=
  match dirFiles with
  | none => false
  | some files => files.any (matchesVolOfBase (int_of_float chap_num))

/-! ## Chapter-number normalization and chapter selection (`downloader.py`) -/

/-- Python `str.rstrip("0")`. -/
def rstripZeros (l : List Char) : List Char := (l.reverse.dropWhile (· = '0')).reverse

/-- Python `str.rstrip(".")`. -/
def rstripDot (l : List Char) : List Char := (l.reverse.dropWhile (· = '.')).reverse

/-- Leading-zero stripping of integer digits, keeping at least one digit. -/
def stripIntZeros (I : List Char) : List Char :=
  let t := I.dropWhile (· = '0')
  if t.isEmpty then ['0'] else t

/-- `str(float(s))` for a well-formed chapter number string containing a dot:
the shortest decimal representation Python prints — integer digits without
leading zeros, a dot, fractional digits without trailing zeros (`".0"` when the
fraction is zero). -/
def str_of_float (s : List Char) : List Char :=
  let I := s.takeWhile (· ≠ '.')
  let F := (s.dropWhile (· ≠ '.')).tail
  let F2 := rstripZeros F
  if F2.isEmpty then stripIntZeros I ++ chars ".0" else stripIntZeros I ++ '.' :: F2

/-- The normalized number string computed per chapter in `download_chapters`:
`str(float(chap_num)).rstrip("0").rstrip(".") if "." in chap_num else chap_num`. -/
def chap_num_str (s : List Char) : List Char :=
  if s.contains '.' then rstripDot (rstripZeros (str_of_float s)) else s

/-- One entry of the fetched chapter list: `(chap_type, chap_num, chap_id)`. -/
structure ChapterRef where
  ctype : List Char
  num : List Char
  cid : List Char
deriving DecidableEq, Repr

/-- The chapter-selection stage of `download_chapters` (`downloader.py`):
iterate the fetched list in reverse, skip chapters whose normalized number
string is not in the requested set, and in zip mode skip chapters already
downloaded. Returns the chapters that proceed to image download. -/
def download_chapters_plan (chapters : List ChapterRef)
    (chapters_to_download : Option (List (List Char))) (zipMode : Bool)
    (outDirFiles : Option (List (List Char))) : List ChapterRef :=
  chapters.reverse.filter fun c =>
    (match chapters_to_download with
     | none => true
     | some req => req.contains (chap_num_str c.num)) &&
    !(zipMode && chapter_already_downloaded c.num outDirFiles)

/-- The chapter-selection stage of the legacy `download_chapters` in `main.py`
(line 237): a chapter is skipped only when BOTH its raw number string and its
normalized number string are missing from the requested set. -/
def main_download_chapters_plan (chapters : List ChapterRef)
    (chapters_to_download : Option (List (List Char))) (zipMode : Bool)
    (outDirFiles : Option (List (List Char))) : List ChapterRef :=
  chapters.reverse.filter fun c =>
    (match chapters_to_download with
     | none => true
     | some req => req.contains c.num || req.contains (chap_num_str c.num)) &&
    !(zipMode && chapter_already_downloaded c.num outDirFiles)

/-- Result of the `--latest` planning branch of `process_manga`. -/
inductive PlanResult where
  | noop : PlanResult
  | download : Option (List (List Char)) → PlanResult
deriving DecidableEq, Repr

/-- The `--latest` planning branch of `process_manga` (`downloader.py`): with
the latest flag set and no explicit chapter set, compute the set of chapters to
download from the newest locally archived chapter number; `noop` models the
early `return` when no new chapters exist. Python's set of number strings is
modelled as the list of numbers in fetch order. -/
def process_manga_plan (latestFlag : Bool)
    (chapters_to_download : Option (List (List Char)))
    (chapters : List ChapterRef) (series_title : List Char)
    (dirFiles : Option (List (List Char))) : PlanResult :=
  if latestFlag ∧ chapters_to_download = none then
    match get_latest_downloaded_chapter series_title dirFiles with
    | none => .download (some (chapters.map (·.num)))
    | some latest =>
        let todo := (chapters.map (·.num)).filter fun nstr => latest < pyFloatVal nstr
        if todo.isEmpty then .noop else .download (some todo)
  else .download chapters_to_download

/-! ## Title sanitization (`src/utils.py`) -/

/-- The character class `[A-Za-z0-9_-]` kept by `sanitize_title`. -/
def isAllowedChar (c : Char) : Bool :=
  ('A' ≤ c && c ≤ 'Z') || ('a' ≤ c && c ≤ 'z') || ('0' ≤ c && c ≤ '9') ||
    c = '-' || c = '_'

/-- `re.sub(r"-+", "-", ·)`: collapse every run of dashes to a single dash. -/
def collapseDashes : List Char → List Char
  | [] => []
  | [c] => [c]
  | c :: d :: rest =>
      if c = '-' && d = '-' then collapseDashes (d :: rest)
      else c :: collapseDashes (d :: rest)

/-- Python `str.strip("-")`: remove leading and trailing dashes. -/
def stripDashes (l : List Char) : List Char :=
  ((l.dropWhile (· = '-')).reverse.dropWhile (· = '-')).reverse

/-- `sanitize_title` with the Unicode decomposition step (the composition of
`unicodedata.normalize("NFKD", ·)` and `.encode("ascii", "ignore")`) supplied
as a parameter `fold`; the library composition maps every ASCII character to
itself, which is the only behaviour observable through the
`[^A-Za-z0-9_-]`-removal step that follows. -/
def sanitize_title_core (fold : Char → List Char) (title : List Char) : List Char :=
  let t1 := title.map fun c => if c = ' ' then '-' else c
  let t2 := t1.flatMap fold
  let t3 := t2.filter isAllowedChar
  stripDashes (collapseDashes t3)

/-- NFKD + ascii-ignore modelled per character: ASCII characters are NFKD-normal
and kept; the ASCII transliteration of a non-ASCII character is irrelevant
after the `[^A-Za-z0-9_-]` filter and is modelled as the empty decomposition. -/
def nfkd_ascii (c : Char) : List Char := if c.toNat < 128 then [c] else []

/-- `sanitize_title` from `src/utils.py`. -/
def sanitize_title (title : List Char) : List Char :=
  sanitize_title_core nfkd_ascii title

/-! ## Image download with retry (`downloader.py`: `download_image`) -/

/-- Outcome of one download attempt: HTTP success, or an exception whose
lowercased text is given. -/
inductive AttemptOutcome where
  | success : AttemptOutcome
  | failure : List Char → AttemptOutcome
deriving DecidableEq, Repr

/-- Python `needle in hay` on strings. -/
def containsSub (needle : List Char) : List Char → Bool
  | [] => needle.isEmpty
  | c :: rest => needle.isPrefixOf (c :: rest) || containsSub needle rest

/-- The transient-network test of `download_image`: the lowercased error text
contains one of the three signals. -/
def isTransientErr (err : List Char) : Bool :=
  containsSub (chars "beacon") err || containsSub (chars "connection refused") err ||
    containsSub (chars "max retries exceeded") err

/-- The mutable session: only its header state matters to the claims. -/
structure Scraper where
  headers : List (List Char × List Char)
deriving DecidableEq, Repr

/-- `cloudscraper.create_scraper()`: a fresh session with no custom headers. -/
def create_scraper : Scraper := ⟨[]⟩

/-- The downloader object state touched by `download_image`. -/
structure DLState where
  scraper : Scraper
  max_retries : Nat
  max_sleep : Nat
  output_dir : List Char
deriving DecidableEq, Repr

/-- The `User-Agent` constant of `downloader.py`. -/
def userAgentValue : List Char :=
  chars "Mozilla/5.0 (X11; Linux x86_64) AppleWebKit/537.36 (KHTML, like Gecko) Chrome/133.0.0.0 Safari/537.36"

/-- `WeebCentralDownloader.__init__`: fresh scraper, then the custom
User-Agent / Accept / HX-Request headers are installed. -/
def downloader_init (max_retries max_sleep : Nat) (out : List Char) : DLState :=
  { scraper :=
      { headers :=
          [(chars "User-Agent", userAgentValue),
           (chars "Accept", chars "*/*"),
           (chars "HX-Request", chars "true")] },
    max_retries := max_retries,
    max_sleep := max_sleep,
    output_dir := out }

/-- One run of the `while retry_count < max_retries` loop of `download_image`,
driven by an oracle giving the outcome of the `retry_count`-th attempt.
Returns the downloader state after the call, `some ()` on success / `none` on
giving up or on a non-transient error, the number of attempts performed and
the number of backoff sleeps (each sleep is `random.randint(15, max_sleep)`
seconds in the source). On a transient failure the shared scraper is replaced
by `create_scraper` and the retry counter incremented; on any other failure
the loop breaks immediately. -/
def download_image_go (att : Nat → AttemptOutcome) (st : DLState)
    (retry_count remaining attempts sleeps : Nat) :
    DLState × Option Unit × Nat × Nat :=
  match remaining with
  | 0 => (st, none, attempts, sleeps)
  | r + 1 =>
      match att retry_count with
      | .success => (st, some (), attempts + 1, sleeps)
      | .failure err =>
          if isTransientErr err then
            download_image_go att { st with scraper := create_scraper }
              (retry_count + 1) r (attempts + 1) (sleeps + 1)
          else (st, none, attempts + 1, sleeps)

/-- `download_image` from `downloader.py` over the attempt oracle. -/
def download_image (att : Nat → AttemptOutcome) (st : DLState) :
    DLState × Option Unit × Nat × Nat :=
  download_image_go att st 0 st.max_retries 0 0

/-- The transient-network test of the legacy `download_image` in `main.py`
(lines 158-162): the anti-bot signal `"beacon"` is tested against the image
URL, not the error text; the other two signals are tested against the
lowercased error text. -/
def isTransientErrMain (img_url err : List Char) : Bool :=
  containsSub (chars "beacon") img_url ||
    containsSub (chars "connection refused") err ||
    containsSub (chars "max retries exceeded") err

/-- One run of the retry loop of `main.py`'s `download_image`, driven by an
attempt oracle; same loop shape as the `downloader.py` version but with the
URL-based transient test and no scraper replacement. Returns `some ()` on
success / `none` on giving up or a non-transient error, the attempt count and
the sleep count. -/
def main_download_image_go (img_url : List Char) (att : Nat → AttemptOutcome)
    (retry_count remaining attempts sleeps : Nat) : Option Unit × Nat × Nat :=
  match remaining with
  | 0 => (none, attempts, sleeps)
  | r + 1 =>
      match att retry_count with
      | .success => (some (), attempts + 1, sleeps)
      | .failure err =>
          if isTransientErrMain img_url err then
            main_download_image_go img_url att (retry_count + 1) r
              (attempts + 1) (sleeps + 1)
          else (none, attempts + 1, sleeps)

/-- `download_image` from `main.py` over the attempt oracle. -/
def main_download_image (img_url : List Char) (att : Nat → AttemptOutcome)
    (max_retries : Nat) : Option Unit × Nat × Nat :=
  main_download_image_go img_url att 0 max_retries 0 0

/-! ## Chapter archiving (`downloader.py`: `archive_chapter`) -/

/-- Image extensions recognized by `has_images` (`src/utils.py`). -/
def imageExts : List (List Char) :=
  [chars ".jpg", chars ".jpeg", chars ".png", chars ".webp", chars ".bmp", chars ".gif"]

/-- `f.lower().endswith(exts)`. -/
def isImageFile (f : List Char) : Bool :=
  imageExts.any fun e => e.isSuffixOf (f.map Char.toLower)

/-- `has_images` from `src/utils.py`, on the file list of an existing folder. -/
def has_images (files : List (List Char)) : Bool := files.any isImageFile

/-- The slice of the filesystem `archive_chapter` touches: the per-series
output directory (existence flag plus archive file names) and the temporary
chapter working directory (`none` once removed). -/
structure ChapterFS where
  outDirExists : Bool
  outDirFiles : List (List Char)
  chapterDir : Option (List (List Char))
deriving DecidableEq, Repr

/-- `archive_chapter` from `downloader.py`: `os.makedirs(out_dir,
exist_ok=True)` first; then if the chapter directory holds no image file, log
and `shutil.rmtree` it producing no archive; otherwise write the archive
(volume `vol_*.zip` name in zip mode, `{title}-{num}[-{type}].cbz` otherwise)
and remove the chapter directory. -/
def archive_chapter (fs : ChapterFS) (zipMode : Bool)
    (series_title chap_num chap_type : List Char) : ChapterFS :=
  match fs.chapterDir with
  | none => fs
  | some cfiles =>
      if has_images cfiles then
        let name :=
          if zipMode then (get_vol_and_chapter_names chap_num).1 ++ chars ".zip"
          else
            series_title ++ '-' :: chap_num ++
              (if chap_type.isEmpty then [] else '-' :: chap_type) ++ chars ".cbz"
        { outDirExists := true, outDirFiles := fs.outDirFiles ++ [name],
          chapterDir := none }
      else
        { outDirExists := true, outDirFiles := fs.outDirFiles, chapterDir := none }

/-! ## Search resolution (`downloader.py`: `get_series_id_from_query`) -/

/-- Code-point lexicographic order on strings, as Python compares `str`. -/
def lexLe : List Char → List Char → Bool
  | [], _ => true
  | _ :: _, [] => false
  | a :: as, b :: bs => if a < b then true else if b < a then false else lexLe as bs

/-- Outcome of series resolution: `NOT FOUND`, or a resolved
`(series_id, series_title)` with a flag recording whether the multiple-result
warning was logged. -/
inductive ResolveResult where
  | notFound : ResolveResult
  | resolved : List Char → List Char → Bool → ResolveResult
deriving DecidableEq, Repr

/-- `get_series_id_from_query` (`downloader.py`), applied to the list of
`/series/([^"/]+/[^"]+)` captures in response order. `sorted(list(set(r)))` is
modelled as `dedup` followed by insertion sort under the code-point
lexicographic order Python uses on `str`; the resolved fields are the two
components of the first candidate around its slash. -/
def get_series_id_from_query (results : List (List Char)) : ResolveResult :=
  if results.isEmpty then .notFound
  else
    match List.insertionSort (fun a b => lexLe a b = true) results.dedup with
    | [] => .notFound
    | first :: rest =>
        .resolved (first.takeWhile (· ≠ '/')) ((first.dropWhile (· ≠ '/')).tail)
          (!rest.isEmpty)

/-- The order-preserving deduplication loop of `main.py`'s
`get_series_id_from_query` (lines 49-54): keep the first occurrence of each
candidate, in response order; `acc` is the `seen` set. -/
def dedupPreserveOrder (acc : List (List Char)) : List (List Char) → List (List Char)
  | [] => []
  | r :: rest =>
      if r ∈ acc then dedupPreserveOrder acc rest
      else r :: dedupPreserveOrder (r :: acc) rest

/-- `get_series_id_from_query` from `main.py`, applied to the regex captures in
response order: unlike the `downloader.py` version there is no sort — the first
candidate in response order is used. -/
def main_get_series_id_from_query (results : List (List Char)) : ResolveResult :=
  if results.isEmpty then .notFound
  else
    match dedupPreserveOrder [] results with
    | [] => .notFound
    | first :: rest =>
        .resolved (first.takeWhile (· ≠ '/')) ((first.dropWhile (· ≠ '/')).tail)
          (!rest.isEmpty)

/-! ## Folder deduplication (`manga_utils.py`) -/

/-- One series folder during the dedup scan: name, modification time, and
files as `(filename, content)` pairs. -/
structure Folder where
  name : List Char
  mtime : ℚ
  files : List (List Char × List Char)
deriving DecidableEq, Repr

/-- `f.endswith(('.cbz', '.zip'))`. -/
def isArchiveName (f : List Char) : Bool :=
  (chars ".cbz").isSuffixOf f || (chars ".zip").isSuffixOf f

/-- `get_folder_priority` from `manga_utils.py`: 100 for an uppercase letter in
the name, plus twice the name length, plus the normalized mtime, plus ten per
archive file. -/
def get_folder_priority (fo : Folder) : ℚ :=
  (if fo.name.any Char.isUpper then 100 else 0) + (fo.name.length : ℚ) * 2 +
    fo.mtime / 1000000 + ((fo.files.filter fun p => isArchiveName p.1).length : ℚ) * 10

/-- `merge_folders` from `manga_utils.py`: move each archive file of the
removal candidate into the kept folder unless a file of that name already
exists there. -/
def merge_folders (keep rem : Folder) : Folder :=
  { keep with
    files := rem.files.foldl
      (fun acc p =>
        if isArchiveName p.1 && !(acc.any fun q => q.1 == p.1) then acc ++ [p]
        else acc)
      keep.files }

/-- The live (non-dry-run) pass of `remove_duplicates_command` on one duplicate
group: sort by priority descending (stable), keep the head, merge every removal
candidate into it, then delete the candidates' directories. The returned list
holds the folders that still exist afterwards. -/
def remove_duplicates_group (folders : List Folder) : List Folder :=
  match List.insertionSort
      (fun a b => get_folder_priority b ≤ get_folder_priority a) folders with
  | [] => []
  | keep :: removes => [removes.foldl merge_folders keep]

/-! ## Lemmas: decimal digits -/

theorem charVal_charOfDigit {m : Nat} (h : m < 10) : charVal (charOfDigit m) = m := by
  interval_cases m <;> rfl

theorem isDigit_charOfDigit {m : Nat} (h : m < 10) : (charOfDigit m).isDigit = true := by
  interval_cases m <;> rfl

theorem natOfDigits_cons (c : Char) (ds : List Char) :
    natOfDigits (c :: ds) = ds.foldl (fun n c => 10 * n + charVal c) (charVal c) := by
  simp [natOfDigits]

theorem foldl_digits_shift (ds : List Char) (a : Nat) :
    ds.foldl (fun n c => 10 * n + charVal c) a = a * 10 ^ ds.length + natOfDigits ds := by
  induction ds generalizing a with
  | nil => simp [natOfDigits]
  | cons c t ih =>
      simp only [List.foldl_cons, natOfDigits_cons, List.length_cons]
      rw [ih, ih (charVal c)]
      ring

theorem natOfDigits_append (xs ys : List Char) :
    natOfDigits (xs ++ ys) = natOfDigits xs * 10 ^ ys.length + natOfDigits ys := by
  simp only [natOfDigits, List.foldl_append]
  rw [foldl_digits_shift]
  rfl

theorem natOfDigits_replicate_zero (k : Nat) :
    natOfDigits (List.replicate k '0') = 0 := by
  induction k with
  | zero => rfl
  | succ n ih =>
      rw [List.replicate_succ, natOfDigits_cons, foldl_digits_shift]
      simpa [charVal] using ih

theorem natOfDigits_natDigitsGo (fuel : Nat) :
    ∀ n acc, n ≤ fuel →
      natOfDigits (natDigitsGo fuel n acc) = n * 10 ^ acc.length + natOfDigits acc := by
  induction fuel with
  | zero => intro n acc hn; interval_cases n; simp [natDigitsGo]
  | succ f ih =>
      intro n acc hn
      rw [natDigitsGo]
      by_cases h0 : n = 0
      · simp [h0]
      · rw [if_neg h0]
        rw [ih (n / 10) _ (by omega)]
        rw [natOfDigits_cons, foldl_digits_shift,
          charVal_charOfDigit (Nat.mod_lt _ (by norm_num))]
        simp only [List.length_cons]
        have hdm : n / 10 * 10 + n % 10 = n := by omega
        calc n / 10 * 10 ^ (acc.length + 1) + (n % 10 * 10 ^ acc.length + natOfDigits acc)
            = (n / 10 * 10 + n % 10) * 10 ^ acc.length + natOfDigits acc := by ring
          _ = n * 10 ^ acc.length + natOfDigits acc := by rw [hdm]

theorem natOfDigits_natDigits (n : Nat) : natOfDigits (natDigits n) = n := by
  unfold natDigits
  split
  · simp [natOfDigits, charVal]; omega
  · simpa [natOfDigits] using natOfDigits_natDigitsGo n n [] (le_refl n)

theorem natDigitsGo_all_digits (fuel : Nat) :
    ∀ n acc, (∀ c ∈ acc, c.isDigit = true) →
      ∀ c ∈ natDigitsGo fuel n acc, c.isDigit = true := by
  induction fuel with
  | zero => intro n acc hacc; simpa [natDigitsGo] using hacc
  | succ f ih =>
      intro n acc hacc
      rw [natDigitsGo]
      by_cases h0 : n = 0
      · simpa [h0] using hacc
      · rw [if_neg h0]
        refine ih (n / 10) _ ?_
        intro c hc
        rcases List.mem_cons.mp hc with h | h
        · subst h; exact isDigit_charOfDigit (Nat.mod_lt _ (by norm_num))
        · exact hacc c h

theorem natDigits_all_digits (n : Nat) : ∀ c ∈ natDigits n, c.isDigit = true := by
  unfold natDigits
  split
  · intro c hc; simp at hc; subst hc; rfl
  · exact natDigitsGo_all_digits n n [] (by simp)

theorem natDigitsGo_length_le (fuel : Nat) :
    ∀ n acc, acc.length ≤ (natDigitsGo fuel n acc).length := by
  induction fuel with
  | zero => intro n acc; simp [natDigitsGo]
  | succ f ih =>
      intro n acc
      rw [natDigitsGo]
      by_cases h0 : n = 0
      · simp [h0]
      · rw [if_neg h0]
        have h := ih (n / 10) (charOfDigit (n % 10) :: acc)
        simp only [List.length_cons] at h
        omega

theorem natDigits_ne_nil (n : Nat) : natDigits n ≠ [] := by
  unfold natDigits
  by_cases h : n = 0
  · simp [h]
  · simp only [if_neg h]
    obtain ⟨k, rfl⟩ : ∃ k, n = k + 1 := ⟨n - 1, by omega⟩
    rw [natDigitsGo, if_neg h]
    intro hcontra
    have := natDigitsGo_length_le k ((k + 1) / 10) [charOfDigit ((k + 1) % 10)]
    rw [hcontra] at this
    simp at this

theorem pad3_all_digits (b : Nat) : ∀ c ∈ pad3 b, c.isDigit = true := by
  intro c hc
  rcases List.mem_append.mp hc with h | h
  · rw [List.eq_of_mem_replicate h]; rfl
  · exact natDigits_all_digits b c h

theorem pad3_ne_nil (b : Nat) : pad3 b ≠ [] := by
  intro h
  have := natDigits_ne_nil b
  rcases List.append_eq_nil.mp h with ⟨_, h2⟩
  exact this h2

theorem natOfDigits_pad3 (b : Nat) : natOfDigits (pad3 b) = b := by
  rw [pad3, natOfDigits_append, natOfDigits_replicate_zero, natOfDigits_natDigits]
  simp

/-! ## Lemmas: takeWhile / dropWhile plumbing -/

theorem takeWhile_append_stop {p : Char → Bool} {xs : List Char}
    (hxs : ∀ c ∈ xs, p c = true) {y : Char} (hy : p y = false) (ys : List Char) :
    (xs ++ y :: ys).takeWhile p = xs := by
  induction xs with
  | nil => simp [List.takeWhile_cons, hy]
  | cons a t ih =>
      have ha := hxs a (by simp)
      simp only [List.cons_append, List.takeWhile_cons, ha, if_true]
      rw [ih fun c hc => hxs c (by simp [hc])]

theorem dropWhile_append_stop {p : Char → Bool} {xs : List Char}
    (hxs : ∀ c ∈ xs, p c = true) {y : Char} (hy : p y = false) (ys : List Char) :
    (xs ++ y :: ys).dropWhile p = y :: ys := by
  induction xs with
  | nil => simp [List.dropWhile_cons, hy]
  | cons a t ih =>
      have ha := hxs a (by simp)
      simp only [List.cons_append, List.dropWhile_cons, ha, if_true]
      exact ih fun c hc => hxs c (by simp [hc])

theorem dropWhile_cons_head_false {p : Char → Bool} :
    ∀ {l : List Char} {c : Char} {t : List Char}, l.dropWhile p = c :: t → p c = false := by
  intro l
  induction l with
  | nil => intro c t h; simp at h
  | cons a as ih =>
      intro c t h
      rw [List.dropWhile_cons] at h
      by_cases hp : p a = true
      · rw [if_pos hp] at h; exact ih h
      · rw [if_neg hp] at h
        cases h
        simpa using hp

/-- A digit character is not a dot, a dash or a slash. -/
theorem isDigit_ne {c : Char} (h : c.isDigit = true) :
    c ≠ '.' ∧ c ≠ '-' ∧ c ≠ '/' := by
  refine ⟨?_, ?_, ?_⟩ <;> rintro rfl <;> simp [Char.isDigit] at h

/-! ## Lemmas: shape of a well-formed chapter number -/

theorem wfChapNum_shape {n : List Char} (h : wfChapNum n = true) :
    (n ≠ [] ∧ (∀ c ∈ n, c.isDigit = true) ∧ n.contains '.' = false ∧
      n.takeWhile (· ≠ '.') = n ∧ (n.dropWhile (· ≠ '.')).tail = []) ∨
    (∃ I F, n = I ++ '.' :: F ∧ I ≠ [] ∧ F ≠ [] ∧
      (∀ c ∈ I, c.isDigit = true) ∧ (∀ c ∈ F, c.isDigit = true) ∧
      n.takeWhile (· ≠ '.') = I ∧ (n.dropWhile (· ≠ '.')).tail = F ∧
      n.contains '.' = true ∧ lastDotComponent n = F) := by
  simp only [wfChapNum, Bool.and_eq_true, Bool.or_eq_true, Bool.not_eq_true',
    List.all_eq_true] at h
  obtain ⟨⟨hIne, hIdig⟩, hR⟩ := h
  have hsplit := List.takeWhile_append_dropWhile (fun c => decide (c ≠ '.')) n
  rcases hRe : n.dropWhile (fun c => decide (c ≠ '.')) with _ | ⟨r0, rt⟩
  · left
    rw [hRe] at hsplit
    simp only [List.append_nil] at hsplit
    have hdig : ∀ c ∈ n, c.isDigit = true := by
      intro c hc
      rw [← hsplit] at hc
      exact hIdig c hc
    refine ⟨?_, hdig, ?_, hsplit, ?_⟩
    · intro hnil
      subst hnil
      simp at hIne
    · simp only [List.contains, Bool.eq_false_iff]
      intro hel
      have hmem : '.' ∈ n := List.elem_iff.mp hel
      have := hdig '.' hmem
      simp [Char.isDigit] at this
    · rfl
  · right
    have hr0 : r0 = '.' := by
      have := dropWhile_cons_head_false hRe
      simpa using this
    subst hr0
    rw [hRe] at hR hsplit
    simp only [List.isEmpty_cons, List.tail_cons, Bool.false_eq_true, false_or,
      Bool.and_eq_true, Bool.not_eq_true', List.all_eq_true] at hR
    obtain ⟨hFne, hFdig⟩ := hR
    refine ⟨n.takeWhile (fun c => decide (c ≠ '.')), rt, hsplit.symm, ?_, ?_,
      hIdig, hFdig, rfl, ?_, ?_, ?_⟩
    · intro hnil; rw [hnil] at hIne; simp at hIne
    · intro hnil; rw [hnil] at hFne; simp at hFne
    · rfl
    · simp only [List.contains]
      exact List.elem_iff.mpr (by rw [← hsplit]; simp)
    · rw [lastDotComponent, ← hsplit]
      rw [List.reverse_append, List.reverse_cons, List.append_assoc,
        List.singleton_append]
      have hdigits : ∀ c ∈ rt.reverse, (fun x => decide (x ≠ '.')) c = true := by
        intro c hc
        have hd : c.isDigit = true := hFdig c (by simpa using hc)
        simpa using (isDigit_ne hd).1
      have hdot : (fun x => decide (x ≠ '.')) '.' = false := by simp
      rw [takeWhile_append_stop hdigits hdot]
      simp

/-! ## Lemmas: `vol_*.zip` archive names -/

theorem chars_vol_len : (chars "vol_").length = 4 := rfl

theorem vol_zip_parts (X : List Char) :
    ((chars "vol_").isPrefixOf (chars "vol_" ++ (X ++ chars ".zip")) = true) ∧
    ((chars ".zip").isSuffixOf (chars "vol_" ++ (X ++ chars ".zip")) = true) ∧
    8 ≤ (chars "vol_" ++ (X ++ chars ".zip")).length ∧
    ((chars "vol_" ++ (X ++ chars ".zip")).drop 4).take
      ((chars "vol_" ++ (X ++ chars ".zip")).length - 8) = X := by
  refine ⟨?_, ?_, ?_, ?_⟩
  · exact List.isPrefixOf_iff_prefix.mpr (List.prefix_append _ _)
  · refine List.isSuffixOf_iff_suffix.mpr ?_
    rw [← List.append_assoc]
    exact List.suffix_append _ _
  · rw [List.length_append, List.length_append, chars_vol_len]
    have : (chars ".zip").length = 4 := rfl
    omega
  · rw [List.drop_left' chars_vol_len]
    have hlen : (chars "vol_" ++ (X ++ chars ".zip")).length - 8 = X.length := by
      rw [List.length_append, List.length_append, chars_vol_len]
      have : (chars ".zip").length = 4 := rfl
      omega
    rw [hlen, List.take_left' rfl]

theorem parse_vol_zip_all_digits (X : List Char) (hne : X ≠ [])
    (hdig : ∀ c ∈ X, c.isDigit = true) :
    parse_vol_zip (chars "vol_" ++ (X ++ chars ".zip")) = some (natOfDigits X : ℚ) := by
  obtain ⟨h1, h2, h3, hbody⟩ := vol_zip_parts X
  rw [parse_vol_zip, if_pos ⟨h1, h2, h3⟩]
  simp only [hbody]
  rw [List.takeWhile_eq_self_iff.mpr hdig, List.dropWhile_eq_nil_iff.mpr hdig]
  simp [hne]

theorem parse_vol_zip_with_frac (X F : List Char) (hXne : X ≠ [])
    (hXdig : ∀ c ∈ X, c.isDigit = true) (hFne : F ≠ [])
    (hFdig : ∀ c ∈ F, c.isDigit = true) :
    parse_vol_zip (chars "vol_" ++ ((X ++ ('-' :: F)) ++ chars ".zip"))
      = some ((natOfDigits X : ℚ) + (natOfDigits F : ℚ) / 10 ^ F.length) := by
  obtain ⟨h1, h2, h3, hbody⟩ := vol_zip_parts (X ++ ('-' :: F))
  rw [parse_vol_zip, if_pos ⟨h1, h2, h3⟩]
  simp only [hbody]
  have hdash : Char.isDigit '-' = false := rfl
  rw [takeWhile_append_stop hXdig hdash F, dropWhile_append_stop hXdig hdash F]
  simp [hXne, hFne, List.all_eq_true]
  exact hFdig

theorem not_cbz_suffix_zip (Y : List Char) :
    ¬((chars ".cbz").isSuffixOf (Y ++ chars ".zip") = true) := by
  intro hsuf
  obtain ⟨u, hu⟩ := List.isSuffixOf_iff_suffix.mp hsuf
  have hL : (u ++ chars ".cbz").reverse.head? = some 'z' := by
    rw [List.reverse_append]; rfl
  rw [hu, List.reverse_append] at hL
  have hz : (chars ".zip").reverse = 'p' :: chars "iz." := rfl
  rw [hz] at hL
  simp at hL

theorem parse_cbz_zip_name (t Y : List Char) :
    parse_cbz t (Y ++ chars ".zip") = none := by
  have hneg : ¬(((chars ".cbz").isSuffixOf (Y ++ chars ".zip") = true) ∧
      ((t ++ ['-']).isPrefixOf (Y ++ chars ".zip") = true)) :=
    fun h => not_cbz_suffix_zip Y h.1
  rw [parse_cbz, if_neg hneg]

theorem parse_cbz_volname (t W : List Char) :
    parse_cbz t (chars "vol_" ++ (W ++ chars ".zip")) = none := by
  rw [← List.append_assoc]
  exact parse_cbz_zip_name t _

theorem zeroCandidates_self (b : Char) (bs rest : List Char) :
    ∀ k, rest ∈ zeroCandidates (b :: bs) (List.replicate k '0' ++ ((b :: bs) ++ rest)) := by
  intro k
  induction k with
  | zero =>
      rw [List.replicate_zero, List.nil_append, List.cons_append, zeroCandidates]
      apply List.mem_append_left
      have hpre : (b :: bs).isPrefixOf (b :: (bs ++ rest)) = true := by
        refine List.isPrefixOf_iff_prefix.mpr ?_
        rw [← List.cons_append]
        exact List.prefix_append _ _
      rw [if_pos hpre]
      have hdrop : (b :: (bs ++ rest)).drop (b :: bs).length = rest := by
        rw [← List.cons_append]
        exact List.drop_left' rfl
      rw [hdrop]
      exact List.mem_singleton.mpr rfl
  | succ k ih =>
      rw [List.replicate_succ, List.cons_append, zeroCandidates]
      apply List.mem_append_right
      rw [if_pos rfl]
      exact ih

theorem matchesVolOfBase_shape (base : Nat) (k : Nat) (rest : List Char)
    (hopt : optDashDigits rest = true) :
    matchesVolOfBase base
      (chars "vol_" ++ ((List.replicate k '0' ++ (natDigits base ++ rest)) ++ chars ".zip"))
      = true := by
  obtain ⟨h1, h2, h3, hbody⟩ :=
    vol_zip_parts (List.replicate k '0' ++ (natDigits base ++ rest))
  rw [matchesVolOfBase, if_pos ⟨h1, h2, h3⟩]
  simp only [hbody]
  obtain ⟨b, bs, hbs⟩ : ∃ b bs, natDigits base = b :: bs := by
    rcases hnd : natDigits base with _ | ⟨b, bs⟩
    · exact absurd hnd (natDigits_ne_nil base)
    · exact ⟨b, bs, rfl⟩
  rw [hbs]
  exact List.any_eq_true.mpr ⟨rest, zeroCandidates_self b bs rest k, hopt⟩

theorem matchesVolOfBase_pad (b : Nat) :
    matchesVolOfBase b (chars "vol_" ++ (pad3 b ++ chars ".zip")) = true := by
  have h := matchesVolOfBase_shape b (3 - (natDigits b).length) [] rfl
  rw [List.append_nil] at h
  exact h

theorem matchesVolOfBase_frac (b : Nat) (F : List Char) (hFne : F ≠ [])
    (hFdig : ∀ c ∈ F, c.isDigit = true) :
    matchesVolOfBase b (chars "vol_" ++ ((natDigits b ++ ('-' :: F)) ++ chars ".zip"))
      = true := by
  have hopt : optDashDigits ('-' :: F) = true := by
    simp [optDashDigits, List.all_eq_true, hFne]
    exact hFdig
  have h := matchesVolOfBase_shape b 0 ('-' :: F) hopt
  simpa using h

/-! ## Claim C1 -/

/-- C1: for every well-formed chapter number string `n` (integer digits plus an
optional `'.'`-separated fractional part), the volume archive name generated by
`get_vol_and_chapter_names` — `vol_{base:03d}` when the fractional part is
absent or `"0"`, `vol_{base}-{dec}` otherwise — parses back through the
archive-name patterns of `get_latest_downloaded_chapter` to exactly the
normalized numeric value `float(n)`, and `chapter_already_downloaded` detects
the generated archive; generate followed by parse equals normalize. -/
theorem C1_naming_round_trip (n title : List Char) (h : wfChapNum n = true) :
    get_latest_downloaded_chapter title
        (some [(get_vol_and_chapter_names n).1 ++ chars ".zip"]) = some (pyFloatVal n) ∧
    chapter_already_downloaded n
        (some [(get_vol_and_chapter_names n).1 ++ chars ".zip"]) = true := by
  have hlatest : ∀ g v, parse_vol_zip g = some v → parse_cbz title g = none →
      get_latest_downloaded_chapter title (some [g]) = some v := by
    intro g v hp hc
    simp [get_latest_downloaded_chapter, hp, hc, listMax]
  have halready : ∀ g, matchesVolOfBase (int_of_float n) g = true →
      chapter_already_downloaded n (some [g]) = true := by
    intro g hm
    simp [chapter_already_downloaded, hm]
  rcases wfChapNum_shape h with
    ⟨hne, hdig, hnodot, htake, htail⟩ |
    ⟨I, F, hn, hIne, hFne, hIdig, hFdig, htake, htail, hdot, hlast⟩
  · have hbase : int_of_float n = natOfDigits n := by rw [int_of_float, htake]
    have hmem : ¬('.' ∈ n) := by simpa using hnodot
    have hgen : (get_vol_and_chapter_names n).1
        = chars "vol_" ++ pad3 (natOfDigits n) := by
      rw [get_vol_and_chapter_names]
      simp [hmem, hbase]
    have hval : pyFloatVal n = (natOfDigits n : ℚ) := by
      simp only [pyFloatVal]
      rw [htake, htail]
      simp [natOfDigits]
    have hshape : (get_vol_and_chapter_names n).1 ++ chars ".zip"
        = chars "vol_" ++ (pad3 (natOfDigits n) ++ chars ".zip") := by
      rw [hgen, List.append_assoc]
    constructor
    · rw [hshape]
      refine hlatest _ _ ?_ (parse_cbz_volname title _)
      rw [parse_vol_zip_all_digits _ (pad3_ne_nil _) (pad3_all_digits _),
        natOfDigits_pad3, hval]
    · rw [hshape]
      refine halready _ ?_
      rw [hbase]
      exact matchesVolOfBase_pad _
  · have hbase : int_of_float n = natOfDigits I := by rw [int_of_float, htake]
    have hmem : '.' ∈ n := by simpa using hdot
    by_cases hF0 : F = ['0']
    · subst hF0
      have hgen : (get_vol_and_chapter_names n).1
          = chars "vol_" ++ pad3 (natOfDigits I) := by
        rw [get_vol_and_chapter_names]
        simp [hmem, hlast, hbase]
      have hval : pyFloatVal n = (natOfDigits I : ℚ) := by
        simp only [pyFloatVal]
        rw [htake, htail]
        have h0 : natOfDigits ['0'] = 0 := rfl
        simp [h0]
      have hshape : (get_vol_and_chapter_names n).1 ++ chars ".zip"
          = chars "vol_" ++ (pad3 (natOfDigits I) ++ chars ".zip") := by
        rw [hgen, List.append_assoc]
      constructor
      · rw [hshape]
        refine hlatest _ _ ?_ (parse_cbz_volname title _)
        rw [parse_vol_zip_all_digits _ (pad3_ne_nil _) (pad3_all_digits _),
          natOfDigits_pad3, hval]
      · rw [hshape]
        refine halready _ ?_
        rw [hbase]
        exact matchesVolOfBase_pad _
    · have hgen : (get_vol_and_chapter_names n).1
          = chars "vol_" ++ natDigits (natOfDigits I) ++ '-' :: F := by
        rw [get_vol_and_chapter_names]
        simp [hmem, hlast, hbase, hF0]
      have hshape : (get_vol_and_chapter_names n).1 ++ chars ".zip"
          = chars "vol_" ++ ((natDigits (natOfDigits I) ++ ('-' :: F)) ++ chars ".zip") := by
        rw [hgen]
        simp [List.append_assoc]
      have hval : pyFloatVal n
          = (natOfDigits I : ℚ) + (natOfDigits F : ℚ) / 10 ^ F.length := by
        simp only [pyFloatVal]
        rw [htake, htail]
      constructor
      · rw [hshape]
        refine hlatest _ _ ?_ (parse_cbz_volname title _)
        rw [parse_vol_zip_with_frac _ _ (natDigits_ne_nil _) (natDigits_all_digits _)
          hFne hFdig, natOfDigits_natDigits, hval]
      · rw [hshape]
        refine halready _ ?_
        rw [hbase]
        exact matchesVolOfBase_frac _ _ hFne hFdig

/-- Witness for C1 at the concrete chapter number `"12.5"`. -/
theorem C1_naming_round_trip_witness :
    wfChapNum (chars "12.5") = true ∧
    get_latest_downloaded_chapter (chars "Some-Title")
        (some [(get_vol_and_chapter_names (chars "12.5")).1 ++ chars ".zip"])
      = some (pyFloatVal (chars "12.5")) ∧
    chapter_already_downloaded (chars "12.5")
        (some [(get_vol_and_chapter_names (chars "12.5")).1 ++ chars ".zip"]) = true := by
  refine ⟨by decide, ?_, ?_⟩
  · exact (C1_naming_round_trip (chars "12.5") (chars "Some-Title") (by decide)).1
  · exact (C1_naming_round_trip (chars "12.5") (chars "Some-Title") (by decide)).2

/-! ## Claims C3 and C10: download_image retry behaviour -/

theorem download_image_go_all_transient (att : Nat → AttemptOutcome)
    (htrans : ∀ i, ∃ e, att i = .failure e ∧ isTransientErr e = true) :
    ∀ remaining st rc a s,
      (download_image_go att st rc remaining a s).2 = (none, a + remaining, s + remaining) := by
  intro remaining
  induction remaining with
  | zero => intro st rc a s; simp [download_image_go]
  | succ r ih =>
      intro st rc a s
      obtain ⟨e, he, ht⟩ := htrans rc
      rw [download_image_go, he]
      simp only [ht, if_true]
      rw [ih]
      simp only [Prod.mk.injEq, true_and]
      exact ⟨by omega, by omega⟩

theorem download_image_go_frame (att : Nat → AttemptOutcome) :
    ∀ remaining st rc a s,
      (download_image_go att st rc remaining a s).1.max_retries = st.max_retries ∧
      (download_image_go att st rc remaining a s).1.max_sleep = st.max_sleep ∧
      (download_image_go att st rc remaining a s).1.output_dir = st.output_dir := by
  intro remaining
  induction remaining with
  | zero => intro st rc a s; simp [download_image_go]
  | succ r ih =>
      intro st rc a s
      rw [download_image_go]
      rcases att rc with _ | e
      · simp
      · by_cases ht : isTransientErr e = true
        · simp only [ht, if_true]
          exact ih _ _ _ _
        · simp only [ht, if_false]
          simp

theorem download_image_go_keep_reset (att : Nat → AttemptOutcome) :
    ∀ remaining st rc a s, st.scraper = create_scraper →
      (download_image_go att st rc remaining a s).1.scraper = create_scraper := by
  intro remaining
  induction remaining with
  | zero => intro st rc a s h; simpa [download_image_go] using h
  | succ r ih =>
      intro st rc a s h
      rw [download_image_go]
      rcases att rc with _ | e
      · simpa using h
      · by_cases ht : isTransientErr e = true
        · simp only [ht, if_true]
          exact ih _ _ _ _ rfl
        · simpa [ht] using h

theorem download_image_go_stops (att : Nat → AttemptOutcome) :
    ∀ (k rc remaining : Nat) (st : DLState) (a s : Nat), k < remaining →
      (∀ i, i < k → ∃ e, att (rc + i) = .failure e ∧ isTransientErr e = true) →
      ∀ e, att (rc + k) = .failure e → isTransientErr e = false →
      (download_image_go att st rc remaining a s).2 = (none, a + k + 1, s + k) := by
  intro k
  induction k with
  | zero =>
      intro rc remaining st a s hk htr e he hne
      obtain ⟨r, hr⟩ : ∃ r, remaining = r + 1 := ⟨remaining - 1, by omega⟩
      subst hr
      rw [Nat.add_zero] at he
      rw [download_image_go, he]
      simp [hne]
  | succ k ih =>
      intro rc remaining st a s hk htr e he hne
      obtain ⟨r, hr⟩ : ∃ r, remaining = r + 1 := ⟨remaining - 1, by omega⟩
      subst hr
      obtain ⟨e0, he0, ht0⟩ := htr 0 (Nat.succ_pos k)
      rw [Nat.add_zero] at he0
      rw [download_image_go, he0]
      simp only [ht0, if_true]
      have harg : ∀ i, i < k →
          ∃ e2, att (rc + 1 + i) = .failure e2 ∧ isTransientErr e2 = true := by
        intro i hi
        obtain ⟨e2, he2, ht2⟩ := htr (i + 1) (by omega)
        refine ⟨e2, ?_, ht2⟩
        rw [show rc + 1 + i = rc + (i + 1) from by omega]
        exact he2
      have hke : att (rc + 1 + k) = AttemptOutcome.failure e := by
        rw [show rc + 1 + k = rc + (k + 1) from by omega]
        exact he
      have h := ih (rc + 1) r { st with scraper := create_scraper } (a + 1) (s + 1)
        (by omega) harg e hke hne
      rw [h]
      simp only [Prod.mk.injEq, true_and]
      exact ⟨by omega, by omega⟩

theorem main_download_image_go_all_transient (img_url : List Char)
    (att : Nat → AttemptOutcome)
    (htrans : ∀ i, ∃ e, att i = .failure e ∧ isTransientErrMain img_url e = true) :
    ∀ remaining rc a s,
      main_download_image_go img_url att rc remaining a s
        = (none, a + remaining, s + remaining) := by
  intro remaining
  induction remaining with
  | zero => intro rc a s; simp [main_download_image_go]
  | succ r ih =>
      intro rc a s
      obtain ⟨e, he, ht⟩ := htrans rc
      rw [main_download_image_go, he]
      simp only [ht, if_true]
      rw [ih]
      simp only [Prod.mk.injEq, true_and]
      exact ⟨by omega, by omega⟩

/-- C3 counterexample: the claim also covers `main.py`'s `download_image`
(lines 141-169), where the anti-bot signal is tested against the image URL
(`"beacon" in img_url`), not the error text. A job whose every attempt raises
an error whose text contains the anti-bot signal — and whose URL does not — is
abandoned there after a single attempt, not after `max_retries = 5` attempts. -/
theorem C3_counterexample :
    main_download_image (chars "https://img.example/p1.png")
        (fun _ => .failure (chars "beacon check failed")) 5
      = (none, 1, 0) ∧ (1 : Nat) ≠ 5 :=
  ⟨by decide, by decide⟩

/-- C3 amended: in `downloader.py`, a job whose every attempt raises a
transient-network error (error text holding a connection-refused,
max-retries-exceeded or anti-bot signal) performs exactly `max_retries`
attempts — never fewer, never more — with one backoff sleep per failed attempt,
then returns `None` without raising; an attempt `k` that raises a
non-transient error terminates the job immediately after that attempt (`k + 1`
attempts in total, no further retries). In `main.py` the anti-bot signal is
tested against the image URL instead of the error text: a job whose URL
carries the signal, or whose error text carries one of the other two signals,
on every attempt is likewise abandoned after exactly `max_retries` attempts. -/
theorem C3_transient_retry_bound (att : Nat → AttemptOutcome) (st : DLState)
    (img_url : List Char) (mr : Nat) :
    ((∀ i, ∃ e, att i = .failure e ∧ isTransientErr e = true) →
      (download_image att st).2 = (none, st.max_retries, st.max_retries)) ∧
    (∀ k, k < st.max_retries →
      (∀ i, i < k → ∃ e, att i = .failure e ∧ isTransientErr e = true) →
      ∀ e, att k = .failure e → isTransientErr e = false →
      (download_image att st).2 = (none, k + 1, k)) ∧
    ((∀ i, ∃ e, att i = .failure e ∧ isTransientErrMain img_url e = true) →
      main_download_image img_url att mr = (none, mr, mr)) := by
  refine ⟨?_, ?_, ?_⟩
  · intro htrans
    rw [download_image, download_image_go_all_transient att htrans]
    simp
  · intro k hk htr e he hne
    have h := download_image_go_stops att k 0 st.max_retries st 0 0 hk
      (fun i hi => by simpa using htr i hi) e (by simpa using he) hne
    rw [download_image, h]
    simp
  · intro htrans
    rw [main_download_image,
      main_download_image_go_all_transient img_url att htrans]
    simp

/-- Witness for C3 (amended): an all-transient run, a run failing
non-transiently on its second attempt, and an all-transient `main.py` run with
the signal in the URL. -/
theorem C3_transient_retry_bound_witness :
    ((download_image (fun _ => .failure (chars "connection refused by host"))
        (downloader_init 5 120 (chars "out"))).2 = (none, 5, 5)) ∧
    ((download_image
        (fun i => if i = 0 then AttemptOutcome.failure (chars "connection refused")
          else AttemptOutcome.failure (chars "404 not found"))
        (downloader_init 5 120 (chars "out"))).2 = (none, 2, 1)) ∧
    main_download_image (chars "https://hot.weebcentral.com/beacon/p1.png")
        (fun _ => .failure (chars "http error")) 5 = (none, 5, 5) := by
  refine ⟨?_, ?_, ?_⟩
  · exact (C3_transient_retry_bound _ _ [] 0).1
      (fun i => ⟨chars "connection refused by host", rfl, by decide⟩)
  · exact (C3_transient_retry_bound _ _ [] 0).2.1 1 (by decide)
      (fun i hi => ⟨chars "connection refused", by
        have h0 : i = 0 := by omega
        rw [h0]
        simp, by decide⟩)
      (chars "404 not found") rfl (by decide)
  · exact (C3_transient_retry_bound (fun _ => .failure (chars "http error"))
      (downloader_init 5 120 (chars "out"))
      (chars "https://hot.weebcentral.com/beacon/p1.png") 5).2.2
      (fun i => ⟨chars "http error", rfl, by decide⟩)

/-- C10: when `download_image` handles a transient-network error it replaces
the shared scraper with a freshly created default one and never re-applies the
custom User-Agent / Accept / HX-Request headers installed by the constructor,
so every later request through the shared session is sent without them, while
`max_retries`, `max_sleep` and `output_dir` are unchanged. -/
theorem C10_session_reset (att : Nat → AttemptOutcome) (mr ms : Nat)
    (out e : List Char) (h0 : att 0 = .failure e) (ht : isTransientErr e = true)
    (hmr : 0 < mr) :
    (download_image att (downloader_init mr ms out)).1.scraper = create_scraper ∧
    (download_image att (downloader_init mr ms out)).1.scraper.headers = [] ∧
    (download_image att (downloader_init mr ms out)).1.max_retries = mr ∧
    (download_image att (downloader_init mr ms out)).1.max_sleep = ms ∧
    (download_image att (downloader_init mr ms out)).1.output_dir = out := by
  obtain ⟨r, hr⟩ : ∃ r, mr = r + 1 := ⟨mr - 1, by omega⟩
  have hstep : download_image att (downloader_init mr ms out)
      = download_image_go att
          { downloader_init mr ms out with scraper := create_scraper } 1 r 1 1 := by
    rw [download_image]
    have : (downloader_init mr ms out).max_retries = mr := rfl
    rw [this, hr, download_image_go, h0]
    simp [ht]
  have hreset := download_image_go_keep_reset att r
    { downloader_init mr ms out with scraper := create_scraper } 1 1 1 rfl
  have hframe := download_image_go_frame att r
    { downloader_init mr ms out with scraper := create_scraper } 1 1 1
  rw [hstep]
  refine ⟨hreset, ?_, ?_, ?_, ?_⟩
  · rw [hreset]; rfl
  · exact hframe.1
  · exact hframe.2.1
  · exact hframe.2.2

/-- Witness for C10 at a concrete transient failure. -/
theorem C10_session_reset_witness :
    ((fun _ => AttemptOutcome.failure (chars "max retries exceeded with url")) 0
        = AttemptOutcome.failure (chars "max retries exceeded with url")) ∧
    isTransientErr (chars "max retries exceeded with url") = true ∧ 0 < 3 ∧
    (download_image (fun _ => .failure (chars "max retries exceeded with url"))
        (downloader_init 3 120 (chars "dl"))).1.scraper.headers = [] := by
  refine ⟨rfl, by decide, by decide, ?_⟩
  exact (C10_session_reset (fun _ => .failure (chars "max retries exceeded with url"))
    3 120 (chars "dl") (chars "max retries exceeded with url") rfl (by decide)
    (by decide)).2.1

/-! ## Claim C9: already-downloaded detection keys on the integer part -/

/-- C9: `chapter_already_downloaded n d` is true exactly when the directory
exists and holds a file full-matching `vol_0*{int(float(n))}(-digits)?\.zip` —
the check keys only on the integer part of `n`, so `"12.5"` is reported
downloaded whenever a volume archive with integer base 12 exists (including
`vol_012.zip` and `vol_12-3.zip`), and in zip mode such a chapter is skipped by
the download loop. -/
theorem C9_integer_part_detection (n : List Char) (dir : Option (List (List Char))) :
    (chapter_already_downloaded n dir = true ↔
      ∃ files, dir = some files ∧
        ∃ f ∈ files, matchesVolOfBase (int_of_float n) f = true) ∧
    chapter_already_downloaded (chars "12.5") (some [chars "vol_012.zip"]) = true ∧
    chapter_already_downloaded (chars "12.5") (some [chars "vol_12-3.zip"]) = true ∧
    (∀ chapters c2d c, c ∈ download_chapters_plan chapters c2d true dir →
      chapter_already_downloaded c.num dir = false) := by
  refine ⟨?_, by decide, by decide, ?_⟩
  · rcases dir with _ | files
    · simp [chapter_already_downloaded]
    · simp [chapter_already_downloaded, List.any_eq_true]
  · intro chapters c2d c hc
    rw [download_chapters_plan] at hc
    have := (List.mem_filter.mp hc).2
    simp only [Bool.and_eq_true, Bool.not_eq_true', Bool.and_eq_false_iff] at this
    rcases this.2 with h | h
    · exact absurd h (by simp)
    · exact h

/-- Witness for C9 at chapter `"12.5"` against `vol_012.zip`. -/
theorem C9_integer_part_detection_witness :
    chapter_already_downloaded (chars "12.5") (some [chars "vol_012.zip"]) = true :=
  (C9_integer_part_detection (chars "12.5") (some [chars "vol_012.zip"])).2.1

/-! ## Claim C6: chapters with no downloaded images -/

/-- C6 counterexample: starting with no series output folder and a chapter
directory holding zero image files, `archive_chapter` writes no archive and
removes the chapter directory, but it has already executed
`os.makedirs(out_dir, exist_ok=True)`, so a new empty output folder exists
afterwards — contradicting "no new empty output folder is created or left
behind". -/
theorem C6_counterexample :
    (archive_chapter ⟨false, [], some []⟩ true (chars "T") (chars "1") []).outDirExists
        = true ∧
    (archive_chapter ⟨false, [], some []⟩ true (chars "T") (chars "1") []).outDirFiles
        = [] ∧
    (archive_chapter ⟨false, [], some []⟩ true (chars "T") (chars "1") []).chapterDir
        = none := by
  refine ⟨rfl, rfl, rfl⟩

/-- C6 amended: when the chapter directory holds no image file (in particular
when every asset job failed), `archive_chapter` produces zero archive files and
removes the temporary chapter directory, but it unconditionally creates the
series output directory first, so an empty output folder can be created and
left behind. -/
theorem C6_no_images_no_archive (fs : ChapterFS) (zipMode : Bool)
    (t num ct : List Char) (cfiles : List (List Char))
    (hdir : fs.chapterDir = some cfiles) (hno : has_images cfiles = false) :
    (archive_chapter fs zipMode t num ct).outDirFiles = fs.outDirFiles ∧
    (archive_chapter fs zipMode t num ct).chapterDir = none ∧
    (archive_chapter fs zipMode t num ct).outDirExists = true := by
  rw [archive_chapter, hdir]
  simp [hno]

/-- Witness for C6 (amended) at an empty chapter directory. -/
theorem C6_no_images_no_archive_witness :
    (ChapterFS.mk false [] (some [])).chapterDir = some [] ∧
    has_images [] = false ∧
    (archive_chapter ⟨false, [], some []⟩ false (chars "T") (chars "2") []).outDirFiles
      = [] := by
  refine ⟨rfl, rfl, ?_⟩
  exact (C6_no_images_no_archive ⟨false, [], some []⟩ false (chars "T") (chars "2")
    [] [] rfl rfl).1

/-- Equation of `get_latest_downloaded_chapter` on an existing directory. -/
theorem get_latest_some (title : List Char) (files : List (List Char)) :
    get_latest_downloaded_chapter title (some files)
      = listMax (files.flatMap fun f =>
          (parse_vol_zip f).toList ++ (parse_cbz title f).toList) := rfl

/-- Evaluation of `pyFloatVal` from a precomputed split. -/
theorem pyFloatVal_eval (s I F : List Char) (htake : s.takeWhile (· ≠ '.') = I)
    (hdrop : (s.dropWhile (· ≠ '.')).tail = F) :
    pyFloatVal s = (natOfDigits I : ℚ) + (natOfDigits F : ℚ) / 10 ^ F.length := by
  simp only [pyFloatVal]
  rw [htake, hdrop]

/-! ## Claim C2: LATEST_ONLY planning -/

/-- C2: in LATEST_ONLY mode (`--latest`, no explicit chapter set): when the
local archive state has no detectable numeric maximum every remote chapter is
planned; otherwise exactly the chapters with `float(number) > latest` are
planned, and when that set is empty the run is a terminal no-op (log and
return), not an error. For local latest 12.0 and remote chapters
{11, 12, 12.5, 13}, exactly {12.5, 13} is planned. -/
theorem C2_latest_only_planning (chapters : List ChapterRef) (title : List Char)
    (dir : Option (List (List Char))) :
    (get_latest_downloaded_chapter title dir = none →
      process_manga_plan true none chapters title dir
        = .download (some (chapters.map (·.num)))) ∧
    (∀ latest, get_latest_downloaded_chapter title dir = some latest →
      ((∃ s ∈ chapters.map (·.num), latest < pyFloatVal s) →
        ∃ planned, process_manga_plan true none chapters title dir
            = .download (some planned) ∧
          ∀ s, s ∈ planned ↔ s ∈ chapters.map (·.num) ∧ latest < pyFloatVal s) ∧
      ((∀ s ∈ chapters.map (·.num), ¬ latest < pyFloatVal s) →
        process_manga_plan true none chapters title dir = .noop)) ∧
    process_manga_plan true none
        [⟨chars "Chapter", chars "13", chars "D"⟩,
         ⟨chars "Chapter", chars "12.5", chars "C"⟩,
         ⟨chars "Chapter", chars "12", chars "B"⟩,
         ⟨chars "Chapter", chars "11", chars "A"⟩]
        (chars "T") (some [chars "vol_012.zip"])
      = .download (some [chars "13", chars "12.5"]) := by
  refine ⟨?_, ?_, ?_⟩
  · intro hnone
    rw [process_manga_plan, if_pos ⟨rfl, rfl⟩, hnone]
  · intro latest hlat
    constructor
    · rintro ⟨s0, hs0, hv0⟩
      rw [process_manga_plan, if_pos ⟨rfl, rfl⟩, hlat]
      have hmem : s0 ∈ (chapters.map (·.num)).filter
          (fun nstr => decide (latest < pyFloatVal nstr)) :=
        List.mem_filter.mpr ⟨hs0, by simpa using hv0⟩
      have hne : ((chapters.map (·.num)).filter
          fun nstr => decide (latest < pyFloatVal nstr)).isEmpty = false := by
        rcases he : (chapters.map (·.num)).filter
            (fun nstr => decide (latest < pyFloatVal nstr)) with _ | _
        · rw [he] at hmem; simp at hmem
        · rw [he]; rfl
      refine ⟨(chapters.map (·.num)).filter fun nstr => decide (latest < pyFloatVal nstr),
        ?_, ?_⟩
      · simp [hne]
      · intro s
        simp [List.mem_filter]
    · intro hall
      rw [process_manga_plan, if_pos ⟨rfl, rfl⟩, hlat]
      have hemp : ((chapters.map (·.num)).filter fun nstr =>
          decide (latest < pyFloatVal nstr)) = [] := by
        rw [List.filter_eq_nil_iff]
        intro s hs
        simp [hall s hs]
      simp [hemp]
  · have hsplit : chars "vol_012.zip" = chars "vol_" ++ (chars "012" ++ chars ".zip") := by
      decide
    have hparse : parse_vol_zip (chars "vol_012.zip") = some 12 := by
      rw [hsplit, parse_vol_zip_all_digits (chars "012") (by decide) (by decide),
        show natOfDigits (chars "012") = 12 from rfl]
      norm_num
    have hcbz : parse_cbz (chars "T") (chars "vol_012.zip") = none := by decide
    have hlat : get_latest_downloaded_chapter (chars "T") (some [chars "vol_012.zip"])
        = some 12 := by
      rw [get_latest_some, List.flatMap_cons, List.flatMap_nil, hparse, hcbz]
      rfl
    have h13 : pyFloatVal (chars "13") = 13 := by
      rw [pyFloatVal_eval (chars "13") (chars "13") [] (by decide) (by decide),
        show natOfDigits (chars "13") = 13 from rfl]
      norm_num [natOfDigits]
    have h125 : pyFloatVal (chars "12.5") = 25 / 2 := by
      rw [pyFloatVal_eval (chars "12.5") (chars "12") (chars "5") (by decide) (by decide),
        show natOfDigits (chars "12") = 12 from rfl,
        show natOfDigits (chars "5") = 5 from rfl,
        show (chars "5").length = 1 from rfl]
      norm_num
    have h12 : pyFloatVal (chars "12") = 12 := by
      rw [pyFloatVal_eval (chars "12") (chars "12") [] (by decide) (by decide),
        show natOfDigits (chars "12") = 12 from rfl]
      norm_num [natOfDigits]
    have h11 : pyFloatVal (chars "11") = 11 := by
      rw [pyFloatVal_eval (chars "11") (chars "11") [] (by decide) (by decide),
        show natOfDigits (chars "11") = 11 from rfl]
      norm_num [natOfDigits]
    have b13 : decide ((12 : ℚ) < pyFloatVal (chars "13")) = true := by
      rw [h13]; exact decide_eq_true (by norm_num)
    have b125 : decide ((12 : ℚ) < pyFloatVal (chars "12.5")) = true := by
      rw [h125]; exact decide_eq_true (by norm_num)
    have b12 : decide ((12 : ℚ) < pyFloatVal (chars "12")) = false := by
      rw [h12]; exact decide_eq_false (by norm_num)
    have b11 : decide ((12 : ℚ) < pyFloatVal (chars "11")) = false := by
      rw [h11]; exact decide_eq_false (by norm_num)
    rw [process_manga_plan, if_pos ⟨rfl, rfl⟩, hlat]
    simp [List.filter_cons, b13, b125, b12, b11]

/-- Witness for C2: an empty local state plans every remote chapter. -/
theorem C2_latest_only_planning_witness :
    get_latest_downloaded_chapter (chars "T") none = none ∧
    process_manga_plan true none [⟨chars "Chapter", chars "7", chars "A"⟩]
        (chars "T") none
      = .download (some [chars "7"]) :=
  ⟨rfl, (C2_latest_only_planning [⟨chars "Chapter", chars "7", chars "A"⟩]
    (chars "T") none).1 rfl⟩

/-! ## Claim C5: explicit chapter selection -/

/-- C5 counterexample: a requested `"12.0"` does not match the remote chapter
`"12"` — neither in `downloader.py`, which normalizes only the remote number,
nor in `main.py` (line 237), which tests the raw and the normalized remote
number against the verbatim requested set. The claimed symmetric normalization
fails in both and the chapter is not selected. -/
theorem C5_counterexample :
    download_chapters_plan [⟨chars "Chapter", chars "12", chars "A"⟩]
        (some [chars "12.0"]) false none = [] ∧
    main_download_chapters_plan [⟨chars "Chapter", chars "12", chars "A"⟩]
        (some [chars "12.0"]) false none = [] := by
  exact ⟨by decide, by decide⟩

/-- C5 amended: in `downloader.py`, explicit selection proceeds with exactly
the remote chapters whose normalized number string (trailing-zero decimals
collapsed, e.g. `"12.0"` to `"12"`) is literally contained in the requested
set — a remote `"12.0"` matches a requested `"12"`, but requested strings are
compared verbatim, so a requested `"12.0"` matches no remote chapter there. In
`main.py` (line 237) a chapter proceeds when its raw or its normalized number
string is in the requested set — so a requested `"12.0"` matches a remote
`"12.0"`, though still not a remote `"12"`. In both, the selector
`"12,12.5,13"` against remote chapters {11, 12, 12.5, 13, 14} selects exactly
{12, 12.5, 13}. -/
theorem C5_explicit_selection (chapters : List ChapterRef) (req : List (List Char))
    (c : ChapterRef) :
    (c ∈ download_chapters_plan chapters (some req) false none ↔
      c ∈ chapters ∧ chap_num_str c.num ∈ req) ∧
    (c ∈ main_download_chapters_plan chapters (some req) false none ↔
      c ∈ chapters ∧ (c.num ∈ req ∨ chap_num_str c.num ∈ req)) ∧
    download_chapters_plan [⟨chars "Chapter", chars "12.0", chars "A"⟩]
        (some [chars "12"]) false none
      = [⟨chars "Chapter", chars "12.0", chars "A"⟩] ∧
    main_download_chapters_plan [⟨chars "Chapter", chars "12.0", chars "A"⟩]
        (some [chars "12.0"]) false none
      = [⟨chars "Chapter", chars "12.0", chars "A"⟩] ∧
    download_chapters_plan
        [⟨chars "Chapter", chars "14", chars "E"⟩,
         ⟨chars "Chapter", chars "13", chars "D"⟩,
         ⟨chars "Chapter", chars "12.5", chars "C"⟩,
         ⟨chars "Chapter", chars "12", chars "B"⟩,
         ⟨chars "Chapter", chars "11", chars "A"⟩]
        (some [chars "12", chars "12.5", chars "13"]) false none
      = [⟨chars "Chapter", chars "12", chars "B"⟩,
         ⟨chars "Chapter", chars "12.5", chars "C"⟩,
         ⟨chars "Chapter", chars "13", chars "D"⟩] ∧
    main_download_chapters_plan
        [⟨chars "Chapter", chars "14", chars "E"⟩,
         ⟨chars "Chapter", chars "13", chars "D"⟩,
         ⟨chars "Chapter", chars "12.5", chars "C"⟩,
         ⟨chars "Chapter", chars "12", chars "B"⟩,
         ⟨chars "Chapter", chars "11", chars "A"⟩]
        (some [chars "12", chars "12.5", chars "13"]) false none
      = [⟨chars "Chapter", chars "12", chars "B"⟩,
         ⟨chars "Chapter", chars "12.5", chars "C"⟩,
         ⟨chars "Chapter", chars "13", chars "D"⟩] := by
  refine ⟨?_, ?_, by decide, by decide, by decide, by decide⟩
  · rw [download_chapters_plan]
    simp [List.mem_filter, List.mem_reverse, chapter_already_downloaded]
  · rw [main_download_chapters_plan]
    simp [List.mem_filter, List.mem_reverse, chapter_already_downloaded]

/-- Witness for C5 (amended): a remote `"12.0"` is selected by a requested
`"12"`. -/
theorem C5_explicit_selection_witness :
    (⟨chars "Chapter", chars "12.0", chars "A"⟩ : ChapterRef) ∈
      download_chapters_plan [⟨chars "Chapter", chars "12.0", chars "A"⟩]
        (some [chars "12"]) false none :=
  (C5_explicit_selection [⟨chars "Chapter", chars "12.0", chars "A"⟩]
    [chars "12"] ⟨chars "Chapter", chars "12.0", chars "A"⟩).1.mpr
    ⟨by simp, by decide⟩

/-! ## Claim C4: sanitize_title idempotence and character set -/

theorem sanitize_title_core_eq (fold : Char → List Char) (title : List Char) :
    sanitize_title_core fold title
      = stripDashes (collapseDashes
          (((title.map fun c => if c = ' ' then '-' else c).flatMap fold).filter
            isAllowedChar)) := rfl

theorem map_id_of {f : Char → Char} {l : List Char} (h : ∀ c ∈ l, f c = c) :
    l.map f = l := by
  induction l with
  | nil => rfl
  | cons a t ih =>
      rw [List.map_cons, h a (by simp), ih fun c hc => h c (by simp [hc])]

theorem flatMap_id_of {fold : Char → List Char} {l : List Char}
    (h : ∀ c ∈ l, fold c = [c]) : l.flatMap fold = l := by
  induction l with
  | nil => rfl
  | cons a t ih =>
      rw [List.flatMap_cons, h a (by simp), ih fun c hc => h c (by simp [hc])]
      rfl

theorem mem_collapseDashes : ∀ (l : List Char) (c : Char), c ∈ collapseDashes l → c ∈ l := by
  intro l
  induction l with
  | nil => intro c hc; simp [collapseDashes] at hc
  | cons a t ih =>
      cases t with
      | nil => intro c hc; simpa [collapseDashes] using hc
      | cons b t2 =>
          intro c hc
          rw [collapseDashes] at hc
          by_cases hab : (decide (a = '-') && decide (b = '-')) = true
          · rw [if_pos hab] at hc
            exact List.mem_cons_of_mem a (ih c hc)
          · rw [if_neg hab] at hc
            rcases List.mem_cons.mp hc with h | h
            · simp [h]
            · exact List.mem_cons_of_mem a (ih c h)

theorem collapseDashes_head : ∀ (b : Char) (t : List Char),
    (collapseDashes (b :: t)).head? = some b := by
  intro b t
  induction t generalizing b with
  | nil => rfl
  | cons c t2 ih =>
      rw [collapseDashes]
      by_cases h : (decide (b = '-') && decide (c = '-')) = true
      · rw [if_pos h]
        simp only [Bool.and_eq_true, decide_eq_true_eq] at h
        rw [ih c, h.1, h.2]
      · rw [if_neg h]; rfl

theorem collapseDashes_chain' : ∀ l : List Char,
    List.Chain' (fun a b : Char => ¬(a = '-' ∧ b = '-')) (collapseDashes l) := by
  intro l
  induction l with
  | nil => simp [collapseDashes]
  | cons a t ih =>
      cases t with
      | nil => simp [collapseDashes]
      | cons b t2 =>
          rw [collapseDashes]
          by_cases h : (decide (a = '-') && decide (b = '-')) = true
          · rw [if_pos h]; exact ih
          · rw [if_neg h]
            rw [List.chain'_cons']
            refine ⟨?_, ih⟩
            intro y hy
            rw [collapseDashes_head b t2] at hy
            simp only [Option.mem_def, Option.some.injEq] at hy
            subst hy
            rintro ⟨ha, hb⟩
            exact h (by simp [ha, hb])

theorem collapseDashes_eq_self : ∀ l : List Char,
    List.Chain' (fun a b : Char => ¬(a = '-' ∧ b = '-')) l → collapseDashes l = l := by
  intro l
  induction l with
  | nil => intro _; rfl
  | cons a t ih =>
      cases t with
      | nil => intro _; rfl
      | cons b t2 =>
          intro h
          obtain ⟨hr, h2⟩ := List.chain'_cons.mp h
          rw [collapseDashes, if_neg, ih h2]
          intro hcontra
          simp only [Bool.and_eq_true, decide_eq_true_eq] at hcontra
          exact hr hcontra

theorem head?_dropWhile_false {p : Char → Bool} {l : List Char} {c : Char}
    (h : (l.dropWhile p).head? = some c) : p c = false := by
  rcases he : l.dropWhile p with _ | ⟨a, t⟩
  · rw [he] at h; simp at h
  · rw [he] at h
    simp only [List.head?_cons, Option.some.injEq] at h
    subst h
    exact dropWhile_cons_head_false he

theorem dropWhile_self_of_head {p : Char → Bool} {l : List Char}
    (h : ∀ c, l.head? = some c → p c = false) : l.dropWhile p = l := by
  cases l with
  | nil => rfl
  | cons a t =>
      have := h a rfl
      rw [List.dropWhile_cons, if_neg (by simp [this])]

theorem getLast?_suffix {l' l : List Char} (h : l' <:+ l) (hne : l' ≠ []) :
    l'.getLast? = l.getLast? := by
  obtain ⟨u, rfl⟩ := h
  rcases hrev : l'.reverse with _ | ⟨a, t⟩
  · exact absurd (by simpa using hrev) hne
  · rw [← List.head?_reverse, ← List.head?_reverse, List.reverse_append, hrev]
    rfl

theorem noDD_reverse {l : List Char}
    (h : List.Chain' (fun a b : Char => ¬(a = '-' ∧ b = '-')) l) :
    List.Chain' (fun a b : Char => ¬(a = '-' ∧ b = '-')) l.reverse := by
  rw [List.chain'_reverse]
  exact h.imp fun a b hab hba => hab ⟨hba.2, hba.1⟩

theorem mem_stripDashes {c : Char} {l : List Char} (h : c ∈ stripDashes l) : c ∈ l := by
  rw [stripDashes] at h
  rw [List.mem_reverse] at h
  have h2 := (List.dropWhile_sublist _).subset h
  rw [List.mem_reverse] at h2
  exact (List.dropWhile_sublist _).subset h2

theorem stripDashes_chain' {l : List Char}
    (h : List.Chain' (fun a b : Char => ¬(a = '-' ∧ b = '-')) l) :
    List.Chain' (fun a b : Char => ¬(a = '-' ∧ b = '-')) (stripDashes l) := by
  rw [stripDashes]
  exact noDD_reverse (((noDD_reverse (h.suffix (List.dropWhile_suffix _))).suffix
    (List.dropWhile_suffix _)))

theorem stripDashes_getLast_ne {l : List Char} {c : Char}
    (h : (stripDashes l).getLast? = some c) : c ≠ '-' := by
  rw [stripDashes, List.getLast?_reverse] at h
  have := head?_dropWhile_false h
  simpa using this

theorem stripDashes_head_ne {l : List Char} {c : Char}
    (h : (stripDashes l).head? = some c) : c ≠ '-' := by
  rw [stripDashes, List.head?_reverse] at h
  have hBne : (l.dropWhile (· = '-')).reverse.dropWhile (· = '-') ≠ [] := by
    intro hb; rw [hb] at h; simp at h
  have hsuf := getLast?_suffix (List.dropWhile_suffix _) hBne
  rw [hsuf, List.getLast?_reverse] at h
  have := head?_dropWhile_false h
  simpa using this

theorem stripDashes_eq_self {l : List Char}
    (hhead : ∀ c, l.head? = some c → c ≠ '-')
    (hlast : ∀ c, l.getLast? = some c → c ≠ '-') :
    stripDashes l = l := by
  rw [stripDashes]
  have h1 : l.dropWhile (· = '-') = l := by
    apply dropWhile_self_of_head
    intro c hc
    simpa using hhead c hc
  rw [h1]
  have h2 : l.reverse.dropWhile (· = '-') = l.reverse := by
    apply dropWhile_self_of_head
    intro c hc
    rw [List.head?_reverse] at hc
    simpa using hlast c hc
  rw [h2, List.reverse_reverse]

theorem allowed_ne_space {c : Char} (h : isAllowedChar c = true) : c ≠ ' ' := by
  rintro rfl
  exact absurd h (by decide)

theorem allowed_ascii {c : Char} (h : isAllowedChar c = true) : c.toNat < 128 := by
  rw [isAllowedChar] at h
  simp only [Bool.or_eq_true, Bool.and_eq_true, decide_eq_true_eq] at h
  rcases h with (((⟨h1, h2⟩ | ⟨h1, h2⟩) | ⟨h1, h2⟩) | h3) | h4
  · have hb : c.toNat ≤ 90 := Char.le_def.mp h2
    omega
  · have hb : c.toNat ≤ 122 := Char.le_def.mp h2
    omega
  · have hb : c.toNat ≤ 57 := Char.le_def.mp h2
    omega
  · subst h3; decide
  · subst h4; decide

theorem sanitize_core_allowed (fold : Char → List Char) (x : List Char) :
    ∀ c ∈ sanitize_title_core fold x, isAllowedChar c = true := by
  intro c hc
  rw [sanitize_title_core_eq] at hc
  have h1 := mem_stripDashes hc
  have h2 := mem_collapseDashes _ c h1
  exact (List.mem_filter.mp h2).2

/-- C4: the title sanitizer is idempotent and its output contains only
characters from `[A-Za-z0-9_-]`. Stated over `sanitize_title_core fold` for
every per-character Unicode decomposition `fold` that is the identity on ASCII
characters — the property the NFKD + ascii-ignore composition of the source
satisfies — hence it holds for `sanitize_title` itself. -/
theorem C4_sanitize_idempotent (fold : Char → List Char)
    (hfold : ∀ c, c.toNat < 128 → fold c = [c]) (x : List Char) :
    sanitize_title_core fold (sanitize_title_core fold x)
        = sanitize_title_core fold x ∧
    ∀ c ∈ sanitize_title_core fold x, isAllowedChar c = true := by
  refine ⟨?_, sanitize_core_allowed fold x⟩
  have hall : ∀ c ∈ sanitize_title_core fold x, isAllowedChar c = true :=
    sanitize_core_allowed fold x
  have hchain : List.Chain' (fun a b : Char => ¬(a = '-' ∧ b = '-'))
      (sanitize_title_core fold x) := by
    rw [sanitize_title_core_eq]
    exact stripDashes_chain' (collapseDashes_chain' _)
  rw [sanitize_title_core_eq fold (sanitize_title_core fold x)]
  have hmap : (sanitize_title_core fold x).map (fun c => if c = ' ' then '-' else c)
      = sanitize_title_core fold x := by
    apply map_id_of
    intro c hc
    have := allowed_ne_space (hall c hc)
    simp [this]
  rw [hmap]
  have hflat : (sanitize_title_core fold x).flatMap fold
      = sanitize_title_core fold x := by
    apply flatMap_id_of
    intro c hc
    exact hfold c (allowed_ascii (hall c hc))
  rw [hflat]
  rw [List.filter_eq_self.mpr hall]
  rw [collapseDashes_eq_self _ hchain]
  apply stripDashes_eq_self
  · intro c hc
    rw [sanitize_title_core_eq] at hc
    exact stripDashes_head_ne hc
  · intro c hc
    rw [sanitize_title_core_eq] at hc
    exact stripDashes_getLast_ne hc

/-- Witness for C4 at `nfkd_ascii` and a concrete title. -/
theorem C4_sanitize_idempotent_witness :
    (∀ c : Char, c.toNat < 128 → nfkd_ascii c = [c]) ∧
    (sanitize_title (sanitize_title (chars "  My --Manga!! Title  "))
        = sanitize_title (chars "  My --Manga!! Title  ") ∧
      ∀ c ∈ sanitize_title (chars "  My --Manga!! Title  "),
        isAllowedChar c = true) := by
  have hfold : ∀ c : Char, c.toNat < 128 → nfkd_ascii c = [c] := by
    intro c hc
    simp [nfkd_ascii, hc]
  exact ⟨hfold, C4_sanitize_idempotent nfkd_ascii hfold (chars "  My --Manga!! Title  ")⟩

/-! ## Claim C7: search resolution determinism -/

theorem lexLe_refl : ∀ a : List Char, lexLe a a = true := by
  intro a
  induction a with
  | nil => rfl
  | cons x xs ih =>
      simp only [lexLe]
      rw [if_neg (lt_irrefl x), if_neg (lt_irrefl x)]
      exact ih

theorem lexLe_total : ∀ a b : List Char, lexLe a b = true ∨ lexLe b a = true := by
  intro a
  induction a with
  | nil => intro b; left; rfl
  | cons x xs ih =>
      intro b
      cases b with
      | nil => right; rfl
      | cons y ys =>
          simp only [lexLe]
          rcases lt_trichotomy x y with h | h | h
          · left; rw [if_pos h]
          · subst h
            simp only [if_neg (lt_irrefl x)]
            exact ih ys
          · right; rw [if_pos h]

theorem lexLe_trans : ∀ a b c : List Char,
    lexLe a b = true → lexLe b c = true → lexLe a c = true := by
  intro a
  induction a with
  | nil => intro b c _ _; rfl
  | cons x xs ih =>
      intro b c hab hbc
      cases b with
      | nil => simp [lexLe] at hab
      | cons y ys =>
          cases c with
          | nil => simp [lexLe] at hbc
          | cons z zs =>
              simp only [lexLe] at hab hbc ⊢
              rcases lt_trichotomy x y with h1 | h1 | h1
              · rcases lt_trichotomy y z with h2 | h2 | h2
                · rw [if_pos (h1.trans h2)]
                · subst h2; rw [if_pos h1]
                · rw [if_neg h2.asymm, if_pos h2] at hbc
                  exact absurd hbc (by simp)
              · subst h1
                rw [if_neg (lt_irrefl x), if_neg (lt_irrefl x)] at hab
                rcases lt_trichotomy x z with h2 | h2 | h2
                · rw [if_pos h2]
                · subst h2
                  rw [if_neg (lt_irrefl x), if_neg (lt_irrefl x)] at hbc ⊢
                  exact ih ys zs hab hbc
                · rw [if_neg h2.asymm, if_pos h2] at hbc
                  exact absurd hbc (by simp)
              · rw [if_neg h1.asymm, if_pos h1] at hab
                exact absurd hab (by simp)

theorem lexLe_antisymm : ∀ a b : List Char,
    lexLe a b = true → lexLe b a = true → a = b := by
  intro a
  induction a with
  | nil =>
      intro b hab hba
      cases b with
      | nil => rfl
      | cons y ys => simp [lexLe] at hba
  | cons x xs ih =>
      intro b hab hba
      cases b with
      | nil => simp [lexLe] at hab
      | cons y ys =>
          simp only [lexLe] at hab hba
          rcases lt_trichotomy x y with h1 | h1 | h1
          · rw [if_neg h1.asymm, if_pos h1] at hba
            exact absurd hba (by simp)
          · subst h1
            rw [if_neg (lt_irrefl x), if_neg (lt_irrefl x)] at hab hba
            rw [ih ys hab hba]
          · rw [if_neg h1.asymm, if_pos h1] at hab
            exact absurd hab (by simp)

/-- C7 counterexample: in `main.py` (lines 38-65) the candidate list is
deduplicated preserving response order and the first candidate in response
order is used — there is no sort. The two orderings of the same two-candidate
set resolve to different series, so resolution there is not order-invariant. -/
theorem C7_counterexample :
    ([chars "b/y", chars "a/x"].Perm [chars "a/x", chars "b/y"]) ∧
    main_get_series_id_from_query [chars "b/y", chars "a/x"]
      = .resolved (chars "b") (chars "y") true ∧
    main_get_series_id_from_query [chars "a/x", chars "b/y"]
      = .resolved (chars "a") (chars "x") true ∧
    main_get_series_id_from_query [chars "b/y", chars "a/x"]
      ≠ main_get_series_id_from_query [chars "a/x", chars "b/y"] :=
  ⟨List.Perm.swap _ _ _, by decide, by decide, by decide⟩

/-- C7 amended: resolution of a free-text search. In `downloader.py`, zero
candidate links give `NOT FOUND`; a multi-candidate result set is non-fatal
and resolves to the first candidate of the lexicographically sorted unique
candidates, so the outcome depends only on the set of candidate links and not
on the order they appear in the response, and the chosen candidate is a
lexicographically least element of the results. In `main.py` (lines 38-65),
zero candidates likewise give `NOT FOUND`, but deduplication preserves
response order and no sort is applied: resolution proceeds with the first
candidate in response order (still non-fatal with multiple candidates), so the
outcome there depends on the order links appear in the response. -/
theorem C7_search_resolution (results1 results2 : List (List Char)) :
    get_series_id_from_query [] = .notFound ∧
    (results1.Perm results2 →
      get_series_id_from_query results1 = get_series_id_from_query results2) ∧
    (results1 ≠ [] → ∃ first rest,
      List.insertionSort (fun a b => lexLe a b = true) results1.dedup
          = first :: rest ∧
      get_series_id_from_query results1
        = .resolved (first.takeWhile (· ≠ '/')) ((first.dropWhile (· ≠ '/')).tail)
            (!rest.isEmpty) ∧
      first ∈ results1 ∧ (∀ r ∈ results1, lexLe first r = true)) ∧
    main_get_series_id_from_query [] = .notFound ∧
    (∀ r rs, results1 = r :: rs → ∃ rest,
      dedupPreserveOrder [] results1 = r :: rest ∧
      main_get_series_id_from_query results1
        = .resolved (r.takeWhile (· ≠ '/')) ((r.dropWhile (· ≠ '/')).tail)
            (!rest.isEmpty)) := by
  haveI hT : IsTotal (List Char) (fun a b => lexLe a b = true) := ⟨lexLe_total⟩
  haveI hR : IsTrans (List Char) (fun a b => lexLe a b = true) := ⟨lexLe_trans⟩
  haveI hA : IsAntisymm (List Char) (fun a b => lexLe a b = true) := ⟨lexLe_antisymm⟩
  refine ⟨rfl, ?_, ?_, rfl, ?_⟩
  · intro hperm
    have hsort : List.insertionSort (fun a b => lexLe a b = true) results1.dedup
        = List.insertionSort (fun a b => lexLe a b = true) results2.dedup := by
      have hp : (List.insertionSort (fun a b => lexLe a b = true) results1.dedup).Perm
          (List.insertionSort (fun a b => lexLe a b = true) results2.dedup) :=
        (List.perm_insertionSort _ _).trans
          ((hperm.dedup).trans (List.perm_insertionSort _ _).symm)
      exact List.eq_of_perm_of_sorted hp (List.sorted_insertionSort _ _)
        (List.sorted_insertionSort _ _)
    have hemp : results1.isEmpty = results2.isEmpty := by
      rcases results1 with _ | ⟨a, as⟩ <;> rcases results2 with _ | ⟨b, bs⟩
      · rfl
      · simpa using hperm.length_eq
      · simpa using hperm.length_eq
      · rfl
    rw [get_series_id_from_query, get_series_id_from_query, hemp, hsort]
  · intro hne
    have hsortperm := List.perm_insertionSort
      (fun a b => lexLe a b = true) results1.dedup
    rcases hs : List.insertionSort (fun a b => lexLe a b = true) results1.dedup with
      _ | ⟨first, rest⟩
    · exfalso
      rcases results1 with _ | ⟨a, as⟩
      · exact hne rfl
      · have ha : a ∈ (a :: as).dedup := List.mem_dedup.mpr (by simp)
        have h2 := hsortperm.symm.subset ha
        rw [hs] at h2
        simp at h2
    · refine ⟨first, rest, rfl, ?_, ?_, ?_⟩
      · rw [get_series_id_from_query]
        have hne2 : results1.isEmpty = false := by
          rcases results1 with _ | _
          · exact absurd rfl hne
          · rfl
        rw [hne2]
        simp only [Bool.false_eq_true, if_false]
        rw [hs]
      · have : first ∈ List.insertionSort (fun a b => lexLe a b = true) results1.dedup := by
          rw [hs]; simp
        exact List.mem_dedup.mp (hsortperm.subset this)
      · intro r hr
        have hsorted := List.sorted_insertionSort
          (fun a b => lexLe a b = true) results1.dedup
        rw [hs] at hsorted
        have hrs : r ∈ first :: rest := by
          rw [← hs]
          exact hsortperm.symm.subset (List.mem_dedup.mpr hr)
        rcases List.mem_cons.mp hrs with h | h
        · subst h; exact lexLe_refl r
        · exact (List.sorted_cons.mp hsorted).1 r h
  · intro r rs h
    subst h
    refine ⟨dedupPreserveOrder [r] rs, ?_, ?_⟩
    · rw [dedupPreserveOrder, if_neg (by simp)]
    · rw [main_get_series_id_from_query]
      simp only [List.isEmpty_cons, Bool.false_eq_true, if_false]
      rw [dedupPreserveOrder, if_neg (by simp)]

/-- Witness for C7 (amended): two orderings of the same two-candidate response
resolve identically in `downloader.py`, the empty response is not found, and
`main.py` resolves the same response to its first candidate in response
order. -/
theorem C7_search_resolution_witness :
    ([chars "b/y", chars "a/x"].Perm [chars "a/x", chars "b/y"]) ∧
    get_series_id_from_query [chars "b/y", chars "a/x"]
      = get_series_id_from_query [chars "a/x", chars "b/y"] ∧
    get_series_id_from_query [] = .notFound ∧
    main_get_series_id_from_query [chars "b/y", chars "a/x"]
      = .resolved (chars "b") (chars "y") true := by
  have hperm : ([chars "b/y", chars "a/x"]).Perm [chars "a/x", chars "b/y"] :=
    List.Perm.swap _ _ _
  have h := C7_search_resolution [chars "b/y", chars "a/x"] [chars "a/x", chars "b/y"]
  refine ⟨hperm, h.2.1 hperm, (C7_search_resolution [] []).1, ?_⟩
  obtain ⟨rest, h1, h2⟩ := h.2.2.2.2 (chars "b/y") [chars "a/x"] rfl
  have h1e : dedupPreserveOrder [] [chars "b/y", chars "a/x"]
      = [chars "b/y", chars "a/x"] := by decide
  rw [h1e] at h1
  have hrest : rest = [chars "a/x"] := by
    injection h1 with _ h3
    exact h3.symm
  rw [h2, hrest]
  decide

/-! ## Claim C8: duplicate-folder removal -/

theorem merge_foldl_front :
    ∀ (l acc : List (List Char × List Char)),
      acc <+: l.foldl (fun acc p =>
        if isArchiveName p.1 && !(acc.any fun q => q.1 == p.1) then acc ++ [p]
        else acc) acc := by
  intro l
  induction l with
  | nil => intro acc; exact List.prefix_refl _
  | cons x t ih =>
      intro acc
      rw [List.foldl_cons]
      refine List.IsPrefix.trans ?_ (ih _)
      by_cases h : (isArchiveName x.1 && !(acc.any fun q => q.1 == x.1)) = true
      · rw [if_pos h]; exact List.prefix_append _ _
      · rw [if_neg h]

theorem merge_folders_front (keep rem : Folder) :
    keep.files <+: (merge_folders keep rem).files := by
  rw [merge_folders]
  exact merge_foldl_front rem.files keep.files

theorem merge_foldl_names :
    ∀ (l acc : List (List Char × List Char)) (p : List Char × List Char),
      p ∈ l → isArchiveName p.1 = true →
      ∃ q, q ∈ l.foldl (fun acc p =>
          if isArchiveName p.1 && !(acc.any fun q => q.1 == p.1) then acc ++ [p]
          else acc) acc ∧ q.1 = p.1 := by
  intro l
  induction l with
  | nil => intro acc p hp _; simp at hp
  | cons x t ih =>
      intro acc p hp ha
      rw [List.foldl_cons]
      rcases List.mem_cons.mp hp with h | h
      · subst h
        by_cases hc : (isArchiveName p.1 && !(acc.any fun q => q.1 == p.1)) = true
        · rw [if_pos hc]
          refine ⟨p, (merge_foldl_front t _).subset (by simp), rfl⟩
        · rw [if_neg hc]
          rw [Bool.and_eq_true, ha] at hc
          simp only [true_and, Bool.not_eq_true', Bool.not_eq_false] at hc
          obtain ⟨q, hq, hqe⟩ := List.any_eq_true.mp hc
          refine ⟨q, (merge_foldl_front t acc).subset hq, by simpa using hqe⟩
      · exact ih _ p h ha

theorem dedup_merge_all (removes : List Folder) :
    ∀ keep : Folder,
      keep.files <+: (removes.foldl merge_folders keep).files ∧
      (removes.foldl merge_folders keep).name = keep.name ∧
      (removes.foldl merge_folders keep).mtime = keep.mtime ∧
      ∀ g ∈ removes, ∀ p ∈ g.files, isArchiveName p.1 = true →
        ∃ q, q ∈ (removes.foldl merge_folders keep).files ∧ q.1 = p.1 := by
  induction removes with
  | nil =>
      intro keep
      exact ⟨List.prefix_refl _, rfl, rfl, by simp⟩
  | cons g t ih =>
      intro keep
      rw [List.foldl_cons]
      obtain ⟨hpre, hname, hmtime, hnames⟩ := ih (merge_folders keep g)
      refine ⟨(merge_folders_front keep g).trans hpre, ?_, ?_, ?_⟩
      · rw [hname]; rfl
      · rw [hmtime]; rfl
      · intro g2 hg2 p hp ha
        rcases List.mem_cons.mp hg2 with h | h
        · subst h
          obtain ⟨q, hq, hqe⟩ := merge_foldl_names g2.files keep.files p hp ha
          exact ⟨q, hpre.subset hq, hqe⟩
        · exact hnames g2 h p hp ha

theorem insertionSort_head_strict_max (folders : List Folder) (f : Folder)
    (hmem : f ∈ folders)
    (hmax : ∀ g ∈ folders, g = f ∨ get_folder_priority g < get_folder_priority f) :
    ∃ rest, List.insertionSort
        (fun a b => get_folder_priority b ≤ get_folder_priority a) folders
      = f :: rest := by
  haveI hT : IsTotal Folder
      (fun a b => get_folder_priority b ≤ get_folder_priority a) :=
    ⟨fun a b => le_total (get_folder_priority b) (get_folder_priority a)⟩
  haveI hR : IsTrans Folder
      (fun a b => get_folder_priority b ≤ get_folder_priority a) :=
    ⟨fun a b c hab hbc => le_trans hbc hab⟩
  have hperm := List.perm_insertionSort
    (fun a b => get_folder_priority b ≤ get_folder_priority a) folders
  have hsorted := List.sorted_insertionSort
    (fun a b => get_folder_priority b ≤ get_folder_priority a) folders
  rcases hs : List.insertionSort
      (fun a b => get_folder_priority b ≤ get_folder_priority a) folders with
    _ | ⟨h, t⟩
  · exfalso
    have := hperm.symm.subset hmem
    rw [hs] at this
    simp at this
  · rw [hs] at hperm hsorted
    have hh : h ∈ folders := hperm.subset (by simp)
    rcases hmax h hh with he | hlt
    · exact ⟨t, by rw [he]⟩
    · exfalso
      have hf : f ∈ h :: t := hperm.symm.subset hmem
      rcases List.mem_cons.mp hf with h1 | h1
      · rw [h1] at hlt; exact lt_irrefl _ hlt
      · have := (List.sorted_cons.mp hsorted).1 f h1
        exact absurd (lt_of_le_of_lt this hlt) (lt_irrefl _)

/-- C8: a live dedup pass on a group of folders sharing a remote identity
keeps exactly the folder of strictly greatest priority score (100 for an
uppercase letter + 2 × name length + normalized mtime + 10 × archive count);
afterwards exactly one folder survives, its name and mtime are those of the
winner, its original file entries are intact (a prefix — never overwritten),
and every archive filename of every folder in the group is present in it —
no archive unit is lost. -/
theorem C8_dedup_keeps_max (folders : List Folder) (f : Folder)
    (hmem : f ∈ folders) (_hlen : 2 ≤ folders.length)
    (hmax : ∀ g ∈ folders, g = f ∨ get_folder_priority g < get_folder_priority f) :
    ∃ kept, remove_duplicates_group folders = [kept] ∧
      kept.name = f.name ∧ kept.mtime = f.mtime ∧
      f.files <+: kept.files ∧
      ∀ g ∈ folders, ∀ p ∈ g.files, isArchiveName p.1 = true →
        ∃ q, q ∈ kept.files ∧ q.1 = p.1 := by
  obtain ⟨removes, hs⟩ := insertionSort_head_strict_max folders f hmem hmax
  obtain ⟨hpre, hname, hmtime, hnames⟩ := dedup_merge_all removes f
  refine ⟨removes.foldl merge_folders f, ?_, hname, hmtime, hpre, ?_⟩
  · rw [remove_duplicates_group, hs]
  · intro g hg p hp ha
    by_cases hgf : g = f
    · subst hgf
      exact ⟨p, hpre.subset hp, rfl⟩
    · have hperm := List.perm_insertionSort
        (fun a b => get_folder_priority b ≤ get_folder_priority a) folders
      have hgs : g ∈ f :: removes := by
        rw [← hs]
        exact hperm.symm.subset hg
      rcases List.mem_cons.mp hgs with h | h
      · exact absurd h hgf
      · exact hnames g h p hp ha

/-- Witness for C8 on a concrete two-folder group. -/
theorem C8_dedup_keeps_max_witness : ∃ kept,
    remove_duplicates_group
        [⟨chars "Manga-A", 0, [(chars "c1.cbz", chars "x")]⟩,
         ⟨chars "manga-a", 0, [(chars "c2.cbz", chars "y")]⟩] = [kept] ∧
    kept.name = chars "Manga-A" ∧
    ∃ q, q ∈ kept.files ∧ q.1 = chars "c2.cbz" := by
  have hprio : get_folder_priority ⟨chars "manga-a", 0, [(chars "c2.cbz", chars "y")]⟩
      < get_folder_priority ⟨chars "Manga-A", 0, [(chars "c1.cbz", chars "x")]⟩ := by
    rw [get_folder_priority, get_folder_priority]
    norm_num [show (chars "Manga-A").any Char.isUpper = true from by decide,
      show (chars "manga-a").any Char.isUpper = false from by decide,
      show (chars "Manga-A").length = 7 from by decide,
      show (chars "manga-a").length = 7 from by decide,
      show ([((chars "c1.cbz"), chars "x")].filter fun p => isArchiveName p.1).length
          = 1 from by decide,
      show ([((chars "c2.cbz"), chars "y")].filter fun p => isArchiveName p.1).length
          = 1 from by decide]
  obtain ⟨kept, h1, h2, _, _, h5⟩ := C8_dedup_keeps_max
    [⟨chars "Manga-A", 0, [(chars "c1.cbz", chars "x")]⟩,
     ⟨chars "manga-a", 0, [(chars "c2.cbz", chars "y")]⟩]
    ⟨chars "Manga-A", 0, [(chars "c1.cbz", chars "x")]⟩
    (by simp) (by simp)
    (by
      intro g hg
      rcases List.mem_cons.mp hg with h | h
      · left; exact h
      · right
        simp only [List.mem_singleton] at h
        rw [h]
        exact hprio)
  exact ⟨kept, h1, h2, h5 ⟨chars "manga-a", 0, [(chars "c2.cbz", chars "y")]⟩
    (by simp) (chars "c2.cbz", chars "y") (by simp) (by decide)⟩

end WeebCentral
